import Mathlib

/-!
Shallow embedding of the `mqtt-react-hooks` library
(packages/mqtt-react-hooks/src/index.tsx, the full variant with
`SerializationMode`), covering:

* the payload codec used by `useMqttPublish` (encode) and
  `useMqttSubscription` (decode);
* the `RecentPublish` fingerprint buffer (`recentSelfMessages`) and its
  insert/prune step in `useMqttPublish`;
* the inbound message handler of `useMqttSubscription` with its
  self-echo suppression (identity tag, then fingerprint-window fallback);
* the connection status machine of `MqttProvider`.

Modelling conventions:

* JavaScript values passed to `publish` are modelled by the inductive
  `JSValue`.  Numbers are modelled as integers (`Int`): every numeric
  literal appearing in the specification's examples is an integer, and
  IEEE-754 fractional printing is outside the model.  `undefined` and
  functions are not modelled.
* Byte payloads (`Uint8Array` / `Buffer`) are `List Nat`, each entry < 256
  where it matters.
* `TextEncoder` / `TextDecoder` are modelled by a standard UTF-8
  encoder/decoder over Unicode scalar values; on malformed input the
  decoder emits U+FFFD for the offending byte, which is the behaviour of
  `TextDecoder` with its default (non-fatal) configuration up to the exact
  number of replacement characters, a detail no theorem below depends on.
* `JSON.stringify` / `JSON.parse` are modelled for the fragment generated
  by the library: null, booleans, integer numbers, strings (with the
  standard escapes), arrays and objects.  Fractional and exponent number
  forms are outside the model.
* `btoa(String.fromCharCode(...bytes))` is modelled by a standard base64
  encoder over the byte list.
-/

/-! ## Decimal and hexadecimal digit printing -/

/-- Character for a single decimal (or hex) digit value. -/
def digitChar (n : Nat) : Char :=
  if n < 10 then Char.ofNat (48 + n) else Char.ofNat (87 + n)

/-- Worker for decimal printing, structurally recursive on fuel; fuel `n`
always suffices since `n / 10` shrinks strictly. -/
def natToCharsGo : Nat → Nat → List Char
  | 0, n => [digitChar (n % 10)]
  | fuel + 1, n =>
    if n < 10 then [digitChar n]
    else natToCharsGo fuel (n / 10) ++ [digitChar (n % 10)]

/-- Decimal digits of a natural number, most significant first
(the rendering used by JavaScript `String(n)` and `JSON.stringify(n)`
for non-negative integers). -/
def natToChars (n : Nat) : List Char := natToCharsGo n n

theorem natToCharsGo_congr :
    ∀ fuel fuel' n, n ≤ fuel → n ≤ fuel' → natToCharsGo fuel n = natToCharsGo fuel' n := by
  intro fuel
  induction fuel with
  | zero =>
    intro fuel' n h h'
    obtain rfl : n = 0 := by omega
    cases fuel' with
    | zero => rfl
    | succ f' =>
      show [digitChar (0 % 10)] = if 0 < 10 then [digitChar 0] else _
      rw [if_pos (by omega)]
  | succ f ih =>
    intro fuel' n h h'
    cases fuel' with
    | zero =>
      obtain rfl : n = 0 := by omega
      show (if 0 < 10 then [digitChar 0] else _) = [digitChar (0 % 10)]
      rw [if_pos (by omega)]
    | succ f' =>
      show (if n < 10 then [digitChar n] else natToCharsGo f (n / 10) ++ [digitChar (n % 10)]) =
        if n < 10 then [digitChar n] else natToCharsGo f' (n / 10) ++ [digitChar (n % 10)]
      by_cases hn : n < 10
      · rw [if_pos hn, if_pos hn]
      · rw [if_neg hn, if_neg hn,
          ih f' (n / 10) (by omega) (by omega)]

theorem natToChars_unfold (n : Nat) :
    natToChars n =
      if n < 10 then [digitChar n] else natToChars (n / 10) ++ [digitChar (n % 10)] := by
  unfold natToChars
  by_cases hn : n < 10
  · rw [if_pos hn]
    cases n with
    | zero => rfl
    | succ m =>
      show (if m + 1 < 10 then [digitChar (m + 1)] else _) = [digitChar (m + 1)]
      rw [if_pos hn]
  · rw [if_neg hn]
    obtain ⟨m, rfl⟩ : ∃ m, n = m + 1 := ⟨n - 1, by omega⟩
    show (if m + 1 < 10 then _ else natToCharsGo m ((m + 1) / 10) ++ [digitChar ((m + 1) % 10)]) = _
    rw [if_neg hn,
      natToCharsGo_congr m ((m + 1) / 10) ((m + 1) / 10) (by omega) (le_refl _)]

/-- Decimal rendering of an integer (JavaScript `String(n)` for integers). -/
def intToChars (n : Int) : List Char :=
  if n < 0 then '-' :: natToChars n.natAbs else natToChars n.natAbs

def intToString (n : Int) : String := ⟨intToChars n⟩

/-! ## base64 (`btoa`) -/

/-- The base64 alphabet. -/
def b64Table : List Char :=
  "ABCDEFGHIJKLMNOPQRSTUVWXYZabcdefghijklmnopqrstuvwxyz0123456789+/".data

def b64At (n : Nat) : Char := b64Table.getD n 'A'

/-- base64 encoding of a byte list, with padding; models
`btoa(String.fromCharCode(...bytes))` for bytes < 256. -/
def base64Chars : List Nat → List Char
  | [] => []
  | [a] => [b64At (a / 4 % 64), b64At (a % 4 * 16), '=', '=']
  | [a, b] => [b64At (a / 4 % 64), b64At (a % 4 * 16 + b / 16 % 16), b64At (b % 16 * 4), '=']
  | a :: b :: c :: rest =>
    b64At (a / 4 % 64) :: b64At (a % 4 * 16 + b / 16 % 16) ::
    b64At (b % 16 * 4 + c / 64 % 4) :: b64At (c % 64) :: base64Chars rest

def btoa (bytes : List Nat) : String := ⟨base64Chars bytes⟩

/-! ## UTF-8 (`TextEncoder` / `TextDecoder`) -/

/-- UTF-8 bytes of one Unicode scalar value (given as a `Nat` codepoint). -/
def utf8EncodeCodepoint (c : Nat) : List Nat :=
  if c < 0x80 then [c]
  else if c < 0x800 then [0xC0 + c / 64, 0x80 + c % 64]
  else if c < 0x10000 then [0xE0 + c / 4096, 0x80 + c / 64 % 64, 0x80 + c % 64]
  else [0xF0 + c / 262144, 0x80 + c / 4096 % 64, 0x80 + c / 64 % 64, 0x80 + c % 64]

/-- `TextEncoder.encode`: UTF-8 bytes of a string. -/
def utf8Encode (s : String) : List Nat :=
  s.data.flatMap (fun c => utf8EncodeCodepoint c.toNat)

/-- Is `b` a UTF-8 continuation byte? -/
def isCont (b : Nat) : Bool := 0x80 ≤ b && b < 0xC0

/-- Value carried by a continuation byte. -/
def contVal (b : Nat) : Nat := b - 0x80

/-- Worker for `TextDecoder.decode`: structurally recursive on a fuel
argument; one unit of fuel is spent per decoded character, so fuel equal
to the byte count always suffices (each character consumes at least one
byte). -/
def utf8DecodeGo : Nat → List Nat → List Char
  | 0, _ => []
  | _ + 1, [] => []
  | fuel + 1, b :: rest =>
    if b < 0x80 then Char.ofNat b :: utf8DecodeGo fuel rest
    else if b < 0xC0 then '\uFFFD' :: utf8DecodeGo fuel rest
    else if b < 0xE0 then
      match rest with
      | b2 :: rest2 =>
        if isCont b2 then
          Char.ofNat ((b - 0xC0) * 64 + contVal b2) :: utf8DecodeGo fuel rest2
        else '\uFFFD' :: utf8DecodeGo fuel (b2 :: rest2)
      | [] => ['\uFFFD']
    else if b < 0xF0 then
      match rest with
      | b2 :: b3 :: rest3 =>
        if isCont b2 && isCont b3 then
          Char.ofNat ((b - 0xE0) * 4096 + contVal b2 * 64 + contVal b3) ::
            utf8DecodeGo fuel rest3
        else '\uFFFD' :: utf8DecodeGo fuel (b2 :: b3 :: rest3)
      | [b2] => if isCont b2 then ['\uFFFD'] else ['\uFFFD', '\uFFFD']
      | [] => ['\uFFFD']
    else
      match rest with
      | b2 :: b3 :: b4 :: rest4 =>
        if isCont b2 && isCont b3 && isCont b4 then
          Char.ofNat ((b - 0xF0) * 262144 + contVal b2 * 4096 + contVal b3 * 64 + contVal b4) ::
            utf8DecodeGo fuel rest4
        else '\uFFFD' :: utf8DecodeGo fuel (b2 :: b3 :: b4 :: rest4)
      | _ => ['\uFFFD']

/-- `TextDecoder.decode` (default, non-fatal): decode UTF-8, emitting
U+FFFD on malformed input. -/
def utf8DecodeChars (bytes : List Nat) : List Char :=
  utf8DecodeGo bytes.length bytes

def utf8Decode (bytes : List Nat) : String := ⟨utf8DecodeChars bytes⟩

/-! ## JavaScript values and `JSON.stringify` / `String()` -/

/-- JavaScript values that can be handed to `publish` (and produced by the
default decoder).  `vBytes` models `Uint8Array` / `Buffer` payloads.
`vNum` carries the integers; `vNumDec` is the parse result of a JSON
numeral that uses fraction or exponent syntax — real `JSON.parse` produces
an IEEE-754 double for it, whose arithmetic is outside the model, so the
value records the numeral itself: its sign, integer part, and the
fraction/exponent suffix text (e.g. `vNumDec false 1 ".5"` for `1.5`).
`vObj` models an object literal as an association list; JavaScript object
keys are unique, so lists with duplicate keys are outside the image of any
program value. -/
inductive JSValue where
  | vNull
  | vBool (b : Bool)
  | vNum (n : Int)
  | vNumDec (neg : Bool) (ip : Nat) (suffix : String)
  | vStr (s : String)
  | vBytes (bs : List Nat)
  | vArr (elems : List JSValue)
  | vObj (fields : List (String × JSValue))
deriving Repr

/-- One character of a JSON string body, escaped as `JSON.stringify` does. -/
def escapeChar (c : Char) : List Char :=
  if c = '"' then ['\\', '"']
  else if c = '\\' then ['\\', '\\']
  else if c = '\x08' then ['\\', 'b']
  else if c = '\x0c' then ['\\', 'f']
  else if c = '\n' then ['\\', 'n']
  else if c = '\r' then ['\\', 'r']
  else if c = '\t' then ['\\', 't']
  else if c.toNat < 0x20 then
    ['\\', 'u', '0', '0', digitChar (c.toNat / 16), digitChar (c.toNat % 16)]
  else [c]

/-- `JSON.stringify` applied to a string: quoted, with escapes. -/
def quoteChars (s : String) : List Char :=
  '"' :: s.data.flatMap escapeChar ++ ['"']

/-- Comma-separated concatenation (no spaces, as `JSON.stringify` emits). -/
def commaJoin : List (List Char) → List Char
  | [] => []
  | [x] => x
  | x :: y :: rest => x ++ ',' :: commaJoin (y :: rest)

mutual

/-- `JSON.stringify` restricted to the modelled value fragment (compact
form, which is what `JSON.stringify` with no spacing argument emits).
`vBytes` is rendered like a plain object would be; the encoder never
reaches that case on binary payloads. -/
def jsonStringifyChars : JSValue → List Char
  | .vNull => "null".data
  | .vBool true => "true".data
  | .vBool false => "false".data
  | .vNum n => intToChars n
  | .vNumDec neg ip suffix =>
    (if neg then ['-'] else []) ++ natToChars ip ++ suffix.data
  | .vStr s => quoteChars s
  | .vBytes _ => "\x7b\x7d".data
  | .vArr elems => '[' :: commaJoin (jsonStringifyElems elems) ++ [']']
  | .vObj fields => '\x7b' :: commaJoin (jsonStringifyFields fields) ++ ['\x7d']

def jsonStringifyElems : List JSValue → List (List Char)
  | [] => []
  | v :: vs => jsonStringifyChars v :: jsonStringifyElems vs

def jsonStringifyFields : List (String × JSValue) → List (List Char)
  | [] => []
  | (k, v) :: fs => (quoteChars k ++ ':' :: jsonStringifyChars v) :: jsonStringifyFields fs

end

def jsonStringify (v : JSValue) : String := ⟨jsonStringifyChars v⟩

/-- Elements of `Uint8Array.prototype.toString` (joined decimal bytes). -/
def jsBytesElems : List Nat → List (List Char)
  | [] => []
  | b :: bs => natToChars b :: jsBytesElems bs

/-- Join with commas, keeping empty pieces (JavaScript `Array.join`). -/
def intercalateComma : List (List Char) → List Char
  | [] => []
  | [x] => x
  | x :: y :: rest => x ++ ',' :: intercalateComma (y :: rest)

mutual

/-- JavaScript `String(v)` coercion for the modelled values: strings pass
through, numbers/booleans/null use their text form, plain objects become
the placeholder `[object Object]`, arrays join their elements with commas
(`Array.prototype.toString`, where a null element renders empty). -/
def jsToStringChars : JSValue → List Char
  | .vNull => "null".data
  | .vBool true => "true".data
  | .vBool false => "false".data
  | .vNum n => intToChars n
  | .vNumDec neg ip suffix =>
    (if neg then ['-'] else []) ++ natToChars ip ++ suffix.data
  | .vStr s => s.data
  | .vBytes bs => intercalateComma (jsBytesElems bs)
  | .vObj _ => "[object Object]".data
  | .vArr elems => intercalateComma (jsArrayElems elems)

def jsArrayElems : List JSValue → List (List Char)
  | [] => []
  | .vNull :: vs => [] :: jsArrayElems vs
  | v :: vs => jsToStringChars v :: jsArrayElems vs

end

def jsToString (v : JSValue) : String := ⟨jsToStringChars v⟩

/-! ## `JSON.parse` -/

/-- Skip JSON whitespace. -/
def skipWs : List Char → List Char
  | [] => []
  | c :: rest =>
    if c = ' ' || c = '\t' || c = '\n' || c = '\r' then skipWs rest else c :: rest

/-- Hexadecimal digit value. -/
def hexVal (c : Char) : Option Nat :=
  if 48 ≤ c.toNat && c.toNat ≤ 57 then some (c.toNat - 48)
  else if 97 ≤ c.toNat && c.toNat ≤ 102 then some (c.toNat - 87)
  else if 65 ≤ c.toNat && c.toNat ≤ 70 then some (c.toNat - 55)
  else none

/-- Single-character JSON escapes. -/
def unescapeChar (c : Char) : Option Char :=
  if c = '"' then some '"'
  else if c = '\\' then some '\\'
  else if c = '/' then some '/'
  else if c = 'b' then some '\x08'
  else if c = 'f' then some '\x0c'
  else if c = 'n' then some '\n'
  else if c = 'r' then some '\r'
  else if c = 't' then some '\t'
  else none

/-- Parse a JSON string body (after the opening quote), returning the
unescaped characters and the input after the closing quote. -/
def parseStringBody : List Char → Option (List Char × List Char)
  | [] => none
  | c :: rest =>
    if c = '"' then some ([], rest)
    else if c = '\\' then
      match rest with
      | [] => none
      | e :: rest2 =>
        if e = 'u' then
          match rest2 with
          | h1 :: h2 :: h3 :: h4 :: rest3 =>
            match hexVal h1, hexVal h2, hexVal h3, hexVal h4 with
            | some a, some b, some c2, some d =>
              match parseStringBody rest3 with
              | some (s, r) => some (Char.ofNat (a * 4096 + b * 256 + c2 * 16 + d) :: s, r)
              | none => none
            | _, _, _, _ => none
          | _ => none
        else
          match unescapeChar e with
          | some c2 =>
            match parseStringBody rest2 with
            | some (s, r) => some (c2 :: s, r)
            | none => none
          | none => none
    else if c.toNat < 0x20 then none
    else
      match parseStringBody rest with
      | some (s, r) => some (c :: s, r)
      | none => none

/-- Accumulate decimal digits. -/
def parseDigitsAux (acc : Nat) : List Char → Nat × List Char
  | [] => (acc, [])
  | c :: rest =>
    if 48 ≤ c.toNat && c.toNat ≤ 57 then parseDigitsAux (acc * 10 + (c.toNat - 48)) rest
    else (acc, c :: rest)

/-- Split the leading run of decimal digits from the input. -/
def takeDigits : List Char → List Char × List Char
  | [] => ([], [])
  | c :: rest =>
    if 48 ≤ c.toNat && c.toNat ≤ 57 then
      (c :: (takeDigits rest).1, (takeDigits rest).2)
    else ([], c :: rest)

/-- The JSON fraction part `'.' digit+`: the consumed text and the rest,
or `none` when no well-formed fraction part starts here (a bare `'.'` is
then left in place and the numeral ends before it, which makes the
enclosing parse fail exactly where real `JSON.parse` raises). -/
def takeFrac : List Char → Option (List Char × List Char)
  | [] => none
  | c :: rest =>
    if c = '.' then
      if (takeDigits rest).1 = [] then none
      else some ('.' :: (takeDigits rest).1, (takeDigits rest).2)
    else none

/-- The JSON exponent part `('e'|'E') ['+'|'-'] digit+`, as `takeFrac`. -/
def takeExp : List Char → Option (List Char × List Char)
  | [] => none
  | c :: rest =>
    if c = 'e' || c = 'E' then
      match rest with
      | [] => none
      | c2 :: rest2 =>
        if c2 = '+' || c2 = '-' then
          if (takeDigits rest2).1 = [] then none
          else some (c :: c2 :: (takeDigits rest2).1, (takeDigits rest2).2)
        else
          if (takeDigits rest).1 = [] then none
          else some (c :: (takeDigits rest).1, (takeDigits rest).2)
    else none

/-- The JSON integer part `'0' | digit1-9 digit*`: its value, its text,
and the rest.  A leading `'0'` consumes only itself, so a leading-zero
numeral such as `042` leaves `42` unconsumed and the enclosing parse
fails, as real `JSON.parse` does. -/
def parseIntPart : List Char → Option (Nat × List Char × List Char)
  | [] => none
  | c :: rest =>
    if c.toNat = 48 then some (0, [c], rest)
    else if 49 ≤ c.toNat && c.toNat ≤ 57 then
      some ((parseDigitsAux 0 (c :: rest)).1, (takeDigits (c :: rest)).1,
        (parseDigitsAux 0 (c :: rest)).2)
    else none

/-- Parse `int [frac] [exp]` after an optional sign has been consumed.
A purely integral numeral yields `vNum`; a numeral with a fraction or
exponent part yields `vNumDec` (see `JSValue`). -/
def parseNumAfterSign (neg : Bool) (input : List Char) : Option (JSValue × List Char) :=
  match parseIntPart input with
  | none => none
  | some (ival, _, r1) =>
    match takeFrac r1 with
    | some (ftext, r2) =>
      match takeExp r2 with
      | some (etext, r3) => some (.vNumDec neg ival ⟨ftext ++ etext⟩, r3)
      | none => some (.vNumDec neg ival ⟨ftext⟩, r2)
    | none =>
      match takeExp r1 with
      | some (etext, r2) => some (.vNumDec neg ival ⟨etext⟩, r2)
      | none => some (.vNum (if neg then -(ival : Int) else (ival : Int)), r1)

/-- Parse a JSON numeral: optional minus sign, integer part, optional
fraction and exponent parts (the full `JSON.parse` number grammar;
non-integral numerals parse to `vNumDec`). -/
def parseNumber : List Char → Option (JSValue × List Char)
  | [] => none
  | c :: rest =>
    if c = '-' then parseNumAfterSign true rest
    else parseNumAfterSign false (c :: rest)

mutual

/-- Fuel-driven recursive-descent JSON value parser.  The fuel only
bounds nesting/element recursion; `jsonParse` below supplies fuel larger
than any input can consume. -/
def parseValue : Nat → List Char → Option (JSValue × List Char)
  | 0, _ => none
  | fuel + 1, input =>
    match input with
    | [] => none
    | c :: r =>
      if c = 'n' then
        match r with
        | 'u' :: 'l' :: 'l' :: r2 => some (.vNull, r2)
        | _ => none
      else if c = 't' then
        match r with
        | 'r' :: 'u' :: 'e' :: r2 => some (.vBool true, r2)
        | _ => none
      else if c = 'f' then
        match r with
        | 'a' :: 'l' :: 's' :: 'e' :: r2 => some (.vBool false, r2)
        | _ => none
      else if c = '"' then
        match parseStringBody r with
        | some (s, r2) => some (.vStr ⟨s⟩, r2)
        | none => none
      else if c = '[' then
        match skipWs r with
        | [] => none
        | c2 :: r2 =>
          if c2 = ']' then some (.vArr [], r2)
          else
            match parseElems fuel (c2 :: r2) with
            | some (vs, r3) =>
              match skipWs r3 with
              | c4 :: r4 => if c4 = ']' then some (.vArr vs, r4) else none
              | [] => none
            | none => none
      else if c = '\x7b' then
        match skipWs r with
        | [] => none
        | c2 :: r2 =>
          if c2 = '\x7d' then some (.vObj [], r2)
          else
            match parseFields fuel (c2 :: r2) with
            | some (fs, r3) =>
              match skipWs r3 with
              | c4 :: r4 => if c4 = '\x7d' then some (.vObj fs, r4) else none
              | [] => none
            | none => none
      else
        parseNumber (c :: r)

/-- Parse one or more comma-separated JSON values. -/
def parseElems : Nat → List Char → Option (List JSValue × List Char)
  | 0, _ => none
  | fuel + 1, input =>
    match parseValue fuel (skipWs input) with
    | some (v, r) =>
      match skipWs r with
      | [] => some ([v], [])
      | c2 :: r2 =>
        if c2 = ',' then
          match parseElems fuel r2 with
          | some (vs, r3) => some (v :: vs, r3)
          | none => none
        else some ([v], c2 :: r2)
    | none => none

/-- Parse one or more comma-separated `"key":value` members. -/
def parseFields : Nat → List Char → Option (List (String × JSValue) × List Char)
  | 0, _ => none
  | fuel + 1, input =>
    match skipWs input with
    | [] => none
    | c :: r =>
      if c = '"' then
        match parseStringBody r with
        | some (k, r2) =>
          match skipWs r2 with
          | [] => none
          | c2 :: r3 =>
            if c2 = ':' then
              match parseValue fuel (skipWs r3) with
              | some (v, r4) =>
                match skipWs r4 with
                | [] => some ([(⟨k⟩, v)], [])
                | c3 :: r5 =>
                  if c3 = ',' then
                    match parseFields fuel r5 with
                    | some (fs, r6) => some ((⟨k⟩, v) :: fs, r6)
                    | none => none
                  else some ([(⟨k⟩, v)], c3 :: r5)
              | none => none
            else none
        | none => none
      else none

end

/-- `JSON.parse`: parse a complete JSON text; `none` models a thrown
`SyntaxError`.  The fuel `s.data.length + 1` dominates the recursion of
any parse that consumes at least one character per recursive step. -/
def jsonParse (s : String) : Option JSValue :=
  match parseValue (s.data.length + 1) (skipWs s.data) with
  | some (v, r) => if skipWs r = [] then some v else none
  | none => none

/-! ## Serialization modes and the publish-side codec
(`useMqttPublish`, src/unnamed/part_002 lines 166-201) -/

/-- `SerializationMode` enum (`auto` / `string` / `json`). -/
inductive SerializationMode where
  | auto
  | string
  | json
deriving Repr, DecidableEq

/-- A wire payload: the `normalized` variable of `useMqttPublish`, which is
either a JavaScript string or binary (`Uint8Array`/`Buffer`). -/
inductive Wire where
  | str (s : String)
  | bytes (bs : List Nat)
deriving Repr, DecidableEq

/-- Is the payload binary (`isUint8 || isBuffer` in the source)? -/
def isBinary : JSValue → Bool
  | .vBytes _ => true
  | _ => false

/-- Is the payload a JavaScript primitive handled by the
`typeof payload === 'number' || 'boolean' || 'bigint'` branch? -/
def isPrimitiveNonString : JSValue → Bool
  | .vNum _ => true
  | .vBool _ => true
  | _ => false

/-- The payload-normalization (encode) logic of `useMqttPublish`, branch by
branch from the source:
1. `Json` mode: binary payloads are UTF-8 decoded and the text
   `JSON.stringify`-ed; everything else is `JSON.stringify`-ed directly.
2. otherwise binary passes through unchanged;
3. otherwise strings pass through unchanged;
4. otherwise numbers/booleans (and bigints, which the integer model
   subsumes) are coerced with `String()`;
5. otherwise `Auto` mode applies `JSON.stringify` (objects/arrays/null);
6. otherwise (`String` mode) `String()` coercion. -/
def normalizePayload (payload : JSValue) (mode : SerializationMode) : Wire :=
  if mode = .json then
    match payload with
    | .vBytes bs => .str (jsonStringify (.vStr (utf8Decode bs)))
    | v => .str (jsonStringify v)
  else
    match payload with
    | .vBytes bs => .bytes bs
    | .vStr s => .str s
    | .vNum n => .str (intToString n)
    | .vBool b => .str (jsToString (.vBool b))
    | v => if mode = .auto then .str (jsonStringify v) else .str (jsToString v)

/-- Bytes of the wire payload as computed for fingerprinting:
`typeof normalized === 'string' ? new TextEncoder().encode(normalized) :
bytes-view` (src lines 203-204). -/
def wireBytes : Wire → List Nat
  | .str s => utf8Encode s
  | .bytes bs => bs

/-! ## The `RecentPublish` buffer (`recentSelfMessages`, src lines 202-210) -/

/-- One entry of `recentSelfMessages`: `{ topic, hash, ts }`. -/
structure RecentPublish where
  topic : String
  hash : String
  ts : Nat
deriving Repr, DecidableEq

/-- The fingerprint: `btoa(String.fromCharCode(...bytes.slice(0, 512)))`. -/
def fingerprint (bytes : List Nat) : String :=
  btoa (bytes.take 512)

/-- The insert-and-prune step of `useMqttPublish` (src lines 202-210):
push `{topic, hash, ts: now}`, drop entries with `now - m.ts >= 7000`,
then `slice(-100)` (keep the most recent 100).  Timestamps are `Nat`
milliseconds; the age comparison uses `Int` subtraction exactly as
JavaScript number subtraction behaves for these operands. -/
def recordPublish (recent : List RecentPublish) (topic : String)
    (normalized : Wire) (now : Nat) : List RecentPublish :=
  let pushed := recent ++ [⟨topic, fingerprint (wireBytes normalized), now⟩]
  let pruned := pushed.filter fun m => (now : Int) - (m.ts : Int) < 7000
  pruned.drop (pruned.length - 100)

/-- The publisher identity generated once per provider instance:
`self-${Math.random().toString(36).slice(2)}-${Date.now()}` (src line 72).
`rand` stands for the random base-36 fragment. -/
def mkPublisherId (rand : String) (created : Nat) : String :=
  "self-" ++ rand ++ "-" ++ ⟨natToChars created⟩

/-- Result of invoking the publish callback of `useMqttPublish`: either a
synchronous `Error` (client not ready) or the updated
`recentSelfMessages` buffer together with the wire payload and the
`publisherId` user property attached to the outgoing packet. -/
structure PublishOutcome where
  recent : List RecentPublish
  sent : Wire
  sentTopic : String
  taggedPublisherId : Option String
deriving Repr

/-- The publish callback of `useMqttPublish` (src lines 156-214):
throws synchronously when no client exists; otherwise injects the
`publisherId` user property, normalizes the payload, records the
fingerprint, and hands the message to `client.publish`.
`clientReady` models `client` being non-null; `ctxPublisherId` models
`ctx?.publisherId` (`none` would be an absent context). -/
def publishCallback (clientReady : Bool) (ctxPublisherId : Option String)
    (recent : List RecentPublish) (topic : String) (payload : JSValue)
    (mode : SerializationMode) (now : Nat) : Except String PublishOutcome :=
  if !clientReady then .error "MQTT client not ready"
  else
    let tagged := match ctxPublisherId with
      | some pid => if pid ≠ "" then some pid else none
      | none => none
    let normalized := normalizePayload payload mode
    let recent2 := recordPublish recent topic normalized now
    .ok ⟨recent2, normalized, topic, tagged⟩

/-! ## The subscription message handler
(`useMqttSubscription`, src lines 262-323) -/

/-- Subscription options (the fields the handler consults). -/
structure SubscriptionOptions where
  excludeSelf : Bool
  selfWindowMs : Option Nat
  serializationMode : Option SerializationMode
deriving Repr

/-- The default-decoder logic of the handler (src lines 297-306): UTF-8
decode the bytes; in `String` mode return the text; otherwise attempt
`JSON.parse` and fall back to the text on failure. -/
def decodePayload (bytes : List Nat) (mode : SerializationMode) : JSValue :=
  match mode with
  | .string => .vStr (utf8Decode bytes)
  | _ =>
    match jsonParse (utf8Decode bytes) with
    | some v => v
    | none => .vStr (utf8Decode bytes)

/-- Does the identity-tag check of the handler fire?  Mirrors
`publisherId && ctx?.publisherId && publisherId === ctx.publisherId`
(src lines 280-281); `none` models an absent user property and empty
strings are falsy. -/
def tagMatches (packetPublisherId : Option String) (ctxPublisherId : String) : Bool :=
  match packetPublisherId with
  | some pid => pid ≠ "" && ctxPublisherId ≠ "" && pid = ctxPublisherId
  | none => false

/-- Does the fingerprint-window fallback of the handler fire?  Mirrors
`recentSelfMessages.current.find(m => m.topic === msgTopic && m.hash ===
hash && now - m.ts < selfWindowMs)` (src lines 285-290). -/
def fallbackHit (recent : List RecentPublish) (msgTopic : String)
    (hash : String) (now window : Nat) : Bool :=
  (recent.find? fun m =>
    m.topic = msgTopic && m.hash = hash && (now : Int) - (m.ts : Int) < window).isSome

/-- The `onMessage` handler installed by `useMqttSubscription`
(src lines 277-312), for a subscription without a custom parser.
Returns `some parsed` when the message is delivered — the parsed value
which is handed to both the `onMessage` streaming callback and the
latest-value slot (`setMessage`) — and `none` when the message is dropped
(topic not literally subscribed) or suppressed (self-echo). -/
def handleMessage (topics : List String) (options : SubscriptionOptions)
    (ctxPublisherId : String) (recent : List RecentPublish) (now : Nat)
    (msgTopic : String) (payload : List Nat)
    (packetPublisherId : Option String) : Option JSValue :=
  if msgTopic ∈ topics then
    let selfWindowMs := options.selfWindowMs.getD 100
    if options.excludeSelf &&
        (tagMatches packetPublisherId ctxPublisherId ||
         fallbackHit recent msgTopic (fingerprint payload) now selfWindowMs) then
      none
    else
      some (decodePayload payload (options.serializationMode.getD .auto))
  else
    none

/-! ## The connection status machine (`MqttProvider`, src lines 75-101) -/

/-- `MqttConnectionStatus`. -/
inductive MqttConnectionStatus where
  | offline
  | connecting
  | online
  | reconnecting
  | error
deriving Repr, DecidableEq

/-- Transport lifecycle events as the provider observes them:
the synchronous `setStatus('connecting')` at effect start (connect
requested), and the mqtt.js `connect` / `reconnect` / `close` / `error`
events. -/
inductive TransportEvent where
  | connectRequested
  | connected
  | reconnectPending
  | closed
  | errored
deriving Repr, DecidableEq

/-- The status transition function of `MqttProvider` (src lines 75-91):
`handleConnect` sets `online`; `handleReconnect` sets `reconnecting` only
from `online`, else `connecting`; `handleClose` sets `offline`;
`handleError` sets `error`; and issuing a connect sets `connecting`. -/
def statusStep (s : MqttConnectionStatus) : TransportEvent → MqttConnectionStatus
  | .connectRequested => .connecting
  | .connected => .online
  | .reconnectPending => if s = .online then .reconnecting else .connecting
  | .closed => .offline
  | .errored => .error

/-- Successive statuses produced by a list of transport events. -/
def statusTrace (s : MqttConnectionStatus) : List TransportEvent → List MqttConnectionStatus
  | [] => []
  | e :: es => statusStep s e :: statusTrace (statusStep s e) es

/-! ## Supporting lemmas: characters and digit printing -/

theorem toNat_ofNat_valid (n : Nat) (h : Nat.isValidChar n) :
    (Char.ofNat n).toNat = n := by
  simp [Char.ofNat, h, Char.ofNatAux, Char.toNat, UInt32.toNat, BitVec.toNat_ofNatLt]

theorem toNat_ofNat_lt (n : Nat) (h : n < 0xD800) : (Char.ofNat n).toNat = n :=
  toNat_ofNat_valid n (Or.inl h)

theorem char_ne_of_toNat_ne {c d : Char} (h : c.toNat ≠ d.toNat) : c ≠ d :=
  fun e => h (congrArg Char.toNat e)

theorem digitChar_toNat_of_lt (n : Nat) (h : n < 10) :
    (digitChar n).toNat = 48 + n := by
  unfold digitChar
  rw [if_pos h]
  exact toNat_ofNat_lt _ (by omega)

theorem digitChar_toNat_hex (n : Nat) (h10 : 10 ≤ n) (h : n < 16) :
    (digitChar n).toNat = 87 + n := by
  unfold digitChar
  rw [if_neg (by omega)]
  exact toNat_ofNat_lt _ (by omega)

/-- Every character `natToChars` emits is a decimal digit. -/
theorem natToChars_digits (n : Nat) :
    ∀ c ∈ natToChars n, 48 ≤ c.toNat ∧ c.toNat ≤ 57 := by
  induction n using Nat.strong_induction_on with
  | _ n ih =>
    rw [natToChars_unfold]
    by_cases h : n < 10
    · rw [if_pos h]
      intro c hc
      simp only [List.mem_singleton] at hc
      subst hc
      rw [digitChar_toNat_of_lt n h]
      omega
    · rw [if_neg h]
      intro c hc
      rcases List.mem_append.mp hc with h1 | h2
      · exact ih (n / 10) (Nat.div_lt_self (by omega) (by omega)) c h1
      · simp only [List.mem_singleton] at h2
        subst h2
        rw [digitChar_toNat_of_lt _ (Nat.mod_lt n (by omega))]
        have := Nat.mod_lt n (show 0 < 10 by omega)
        omega

theorem natToChars_ne_nil (n : Nat) : natToChars n ≠ [] := by
  rw [natToChars_unfold]
  by_cases h : n < 10
  · rw [if_pos h]; simp
  · rw [if_neg h]; simp

/-! ## Supporting lemmas: digit parsing -/

/-- A list that does not begin with a decimal digit. -/
def noDigitStart : List Char → Prop
  | [] => True
  | c :: _ => ¬(48 ≤ c.toNat ∧ c.toNat ≤ 57)

theorem parseDigitsAux_stop (acc : Nat) (rest : List Char) (h : noDigitStart rest) :
    parseDigitsAux acc rest = (acc, rest) := by
  cases rest with
  | nil => rfl
  | cons c cs =>
    unfold parseDigitsAux
    rw [if_neg]
    simpa [noDigitStart] using h

theorem parseDigitsAux_cons (acc : Nat) (c : Char) (rest : List Char) :
    parseDigitsAux acc (c :: rest) =
      if 48 ≤ c.toNat && c.toNat ≤ 57 then
        parseDigitsAux (acc * 10 + (c.toNat - 48)) rest
      else (acc, c :: rest) := rfl

theorem parseDigitsAux_natToChars (n : Nat) :
    ∀ (acc : Nat) (rest : List Char),
      parseDigitsAux acc (natToChars n ++ rest) =
        parseDigitsAux (acc * 10 ^ (natToChars n).length + n) rest := by
  induction n using Nat.strong_induction_on with
  | _ n ih =>
    intro acc rest
    rw [natToChars_unfold]
    by_cases h : n < 10
    · rw [if_pos h]
      rw [List.singleton_append, List.length_singleton, parseDigitsAux_cons,
        if_pos (by rw [digitChar_toNat_of_lt n h]; simp; omega),
        digitChar_toNat_of_lt n h]
      have : acc * 10 + (48 + n - 48) = acc * 10 ^ 1 + n := by
        rw [pow_one]; omega
      rw [this]
    · rw [if_neg h]
      rw [List.append_assoc, List.singleton_append,
        ih (n / 10) (Nat.div_lt_self (by omega) (by omega))]
      have hm : n % 10 < 10 := Nat.mod_lt n (by omega)
      rw [parseDigitsAux_cons,
        if_pos (by rw [digitChar_toNat_of_lt _ hm]; simp; omega),
        digitChar_toNat_of_lt _ hm]
      have hlen : (natToChars (n / 10) ++ [digitChar (n % 10)]).length =
          (natToChars (n / 10)).length + 1 := by simp
      rw [hlen]
      have e1 : acc * 10 ^ ((natToChars (n / 10)).length + 1) =
          acc * 10 ^ (natToChars (n / 10)).length * 10 := by ring
      rw [e1]
      have e2 : (acc * 10 ^ (natToChars (n / 10)).length + n / 10) * 10 +
          (48 + n % 10 - 48) =
          acc * 10 ^ (natToChars (n / 10)).length * 10 + n := by
        have := Nat.div_add_mod n 10
        omega
      rw [e2]

/-- A list that cannot continue a JSON numeral: it does not begin with a
digit, a decimal point, or an exponent marker. -/
def numeralBoundary : List Char → Prop
  | [] => True
  | c :: _ => ¬(48 ≤ c.toNat ∧ c.toNat ≤ 57) ∧ c ≠ '.' ∧ c ≠ 'e' ∧ c ≠ 'E'

theorem numeralBoundary_noDigit (l : List Char) (h : numeralBoundary l) :
    noDigitStart l := by
  cases l with
  | nil => trivial
  | cons c cs => exact h.1

theorem parseDigitsAux_natToChars_full (n : Nat) (rest : List Char)
    (h : noDigitStart rest) :
    parseDigitsAux 0 (natToChars n ++ rest) = (n, rest) := by
  rw [parseDigitsAux_natToChars, parseDigitsAux_stop _ _ h]
  simp

theorem takeDigits_cons (c : Char) (rest : List Char) :
    takeDigits (c :: rest) =
      if 48 ≤ c.toNat && c.toNat ≤ 57 then
        (c :: (takeDigits rest).1, (takeDigits rest).2)
      else ([], c :: rest) := rfl

theorem takeDigits_append (ds : List Char) : ∀ rest : List Char,
    (∀ c ∈ ds, 48 ≤ c.toNat ∧ c.toNat ≤ 57) → noDigitStart rest →
    takeDigits (ds ++ rest) = (ds, rest) := by
  induction ds with
  | nil =>
    intro rest _ h
    rw [List.nil_append]
    cases rest with
    | nil => rfl
    | cons c cs =>
      rw [takeDigits_cons, if_neg]
      simpa [noDigitStart] using h
  | cons d ds ih =>
    intro rest hds h
    rw [List.cons_append, takeDigits_cons,
      if_pos (by
        have := hds d (List.mem_cons_self d ds)
        simp only [Bool.and_eq_true, decide_eq_true_eq]
        omega),
      ih rest (fun c hc => hds c (List.mem_cons_of_mem d hc)) h]

theorem takeFrac_cons (c : Char) (rest : List Char) :
    takeFrac (c :: rest) =
      if c = '.' then
        if (takeDigits rest).1 = [] then none
        else some ('.' :: (takeDigits rest).1, (takeDigits rest).2)
      else none := rfl

theorem takeFrac_none (rest : List Char) (h : numeralBoundary rest) :
    takeFrac rest = none := by
  cases rest with
  | nil => rfl
  | cons c cs => rw [takeFrac_cons, if_neg h.2.1]

theorem takeExp_cons (c : Char) (rest : List Char) :
    takeExp (c :: rest) =
      if c = 'e' || c = 'E' then
        (match rest with
         | [] => none
         | c2 :: rest2 =>
           if c2 = '+' || c2 = '-' then
             if (takeDigits rest2).1 = [] then none
             else some (c :: c2 :: (takeDigits rest2).1, (takeDigits rest2).2)
           else
             if (takeDigits rest).1 = [] then none
             else some (c :: (takeDigits rest).1, (takeDigits rest).2))
      else none := rfl

theorem takeExp_none (rest : List Char) (h : numeralBoundary rest) :
    takeExp rest = none := by
  cases rest with
  | nil => rfl
  | cons c cs =>
    rw [takeExp_cons, if_neg]
    simp only [Bool.or_eq_true, decide_eq_true_eq]
    rintro (h1 | h2)
    · exact h.2.2.1 h1
    · exact h.2.2.2 h2

theorem natToChars_head_pos (n : Nat) : 1 ≤ n →
    ∃ c cs, natToChars n = c :: cs ∧ 49 ≤ c.toNat ∧ c.toNat ≤ 57 := by
  induction n using Nat.strong_induction_on with
  | _ n ih =>
    intro h
    rw [natToChars_unfold]
    by_cases h10 : n < 10
    · rw [if_pos h10]
      refine ⟨digitChar n, [], rfl, ?_, ?_⟩ <;>
        rw [digitChar_toNat_of_lt n h10] <;> omega
    · rw [if_neg h10]
      obtain ⟨c, cs, hcs, hlo, hhi⟩ :=
        ih (n / 10) (Nat.div_lt_self (by omega) (by omega)) (by omega)
      exact ⟨c, cs ++ [digitChar (n % 10)], by rw [hcs, List.cons_append], hlo, hhi⟩

theorem parseIntPart_cons (c : Char) (rest : List Char) :
    parseIntPart (c :: rest) =
      if c.toNat = 48 then some (0, [c], rest)
      else if 49 ≤ c.toNat && c.toNat ≤ 57 then
        some ((parseDigitsAux 0 (c :: rest)).1, (takeDigits (c :: rest)).1,
          (parseDigitsAux 0 (c :: rest)).2)
      else none := rfl

theorem parseIntPart_natToChars (n : Nat) (rest : List Char) (h : numeralBoundary rest) :
    parseIntPart (natToChars n ++ rest) = some (n, natToChars n, rest) := by
  by_cases h0 : n = 0
  · subst h0
    rw [show natToChars 0 = [digitChar 0] from by
      rw [natToChars_unfold]; rw [if_pos (by omega)]]
    rw [List.singleton_append, parseIntPart_cons,
      if_pos (by rw [digitChar_toNat_of_lt 0 (by omega)])]
  · obtain ⟨c, cs, hcs, hlo, hhi⟩ := natToChars_head_pos n (by omega)
    rw [hcs, List.cons_append, parseIntPart_cons, if_neg (by omega),
      if_pos (by simp only [Bool.and_eq_true, decide_eq_true_eq]; omega),
      ← List.cons_append, ← hcs,
      parseDigitsAux_natToChars_full n rest (numeralBoundary_noDigit rest h),
      takeDigits_append (natToChars n) rest (natToChars_digits n)
        (numeralBoundary_noDigit rest h)]

theorem parseNumAfterSign_natToChars (neg : Bool) (n : Nat) (rest : List Char)
    (h : numeralBoundary rest) :
    parseNumAfterSign neg (natToChars n ++ rest) =
      some (.vNum (if neg then -(n : Int) else (n : Int)), rest) := by
  unfold parseNumAfterSign
  rw [parseIntPart_natToChars n rest h]
  simp only []
  rw [takeFrac_none rest h]
  simp only []
  rw [takeExp_none rest h]

theorem parseNumber_cons (c : Char) (rest : List Char) :
    parseNumber (c :: rest) =
      if c = '-' then parseNumAfterSign true rest
      else parseNumAfterSign false (c :: rest) := rfl

theorem parseNumber_intToChars (n : Int) (rest : List Char) (h : numeralBoundary rest) :
    parseNumber (intToChars n ++ rest) = some (.vNum n, rest) := by
  unfold intToChars
  by_cases hn : n < 0
  · rw [if_pos hn, List.cons_append, parseNumber_cons, if_pos rfl,
      parseNumAfterSign_natToChars true n.natAbs rest h]
    exact congrArg (fun z => some (JSValue.vNum z, rest))
      (show -(n.natAbs : Int) = n by omega)
  · rw [if_neg hn]
    cases hcs : natToChars n.natAbs with
    | nil => exact absurd hcs (natToChars_ne_nil _)
    | cons c cs =>
      have hdig := natToChars_digits n.natAbs c (by rw [hcs]; exact List.mem_cons_self c cs)
      rw [List.cons_append, parseNumber_cons,
        if_neg (show ¬(c = '-') from
          char_ne_of_toNat_ne (by simp only [show ('-').toNat = 45 from rfl]; omega)),
        ← List.cons_append, ← hcs, parseNumAfterSign_natToChars false n.natAbs rest h]
      exact congrArg (fun z => some (JSValue.vNum z, rest))
        (show (n.natAbs : Int) = n by omega)

/-! ## Supporting lemmas: string escaping -/

theorem hexVal_digitChar (n : Nat) (h : n < 16) : hexVal (digitChar n) = some n := by
  by_cases h10 : n < 10
  · unfold hexVal
    rw [digitChar_toNat_of_lt n h10]
    rw [if_pos (by simp only [Bool.and_eq_true, decide_eq_true_eq]; omega)]
    simp only [Option.some.injEq]
    omega
  · unfold hexVal
    rw [digitChar_toNat_hex n (by omega) h]
    rw [if_neg (by simp only [Bool.and_eq_true, decide_eq_true_eq]; omega)]
    rw [if_pos (by simp only [Bool.and_eq_true, decide_eq_true_eq]; omega)]
    simp only [Option.some.injEq]
    omega

theorem parseStringBody_quote (rest : List Char) :
    parseStringBody ('"' :: rest) = some ([], rest) := by
  rw [parseStringBody.eq_def]
  rfl

theorem parseStringBody_plain (c : Char) (rest : List Char)
    (h1 : c ≠ '"') (h2 : c ≠ '\\') (h3 : ¬c.toNat < 0x20) :
    parseStringBody (c :: rest) =
      match parseStringBody rest with
      | some (s, r) => some (c :: s, r)
      | none => none := by
  rw [parseStringBody.eq_def]
  simp only [if_neg h1, if_neg h2, if_neg h3]

theorem parseStringBody_esc (e c2 : Char) (rest : List Char)
    (hu : e ≠ 'u') (he : unescapeChar e = some c2) :
    parseStringBody ('\\' :: e :: rest) =
      match parseStringBody rest with
      | some (s, r) => some (c2 :: s, r)
      | none => none := by
  rw [parseStringBody.eq_def]
  simp only [if_neg (show ('\\' : Char) ≠ '"' by decide), if_pos rfl, if_neg hu, he,
    if_true]

theorem parseStringBody_hex (h1 h2 h3 h4 : Char) (a b c2 d : Nat) (rest : List Char)
    (e1 : hexVal h1 = some a) (e2 : hexVal h2 = some b)
    (e3 : hexVal h3 = some c2) (e4 : hexVal h4 = some d) :
    parseStringBody ('\\' :: 'u' :: h1 :: h2 :: h3 :: h4 :: rest) =
      match parseStringBody rest with
      | some (s, r) => some (Char.ofNat (a * 4096 + b * 256 + c2 * 16 + d) :: s, r)
      | none => none := by
  rw [parseStringBody.eq_def]
  simp only [if_neg (show ('\\' : Char) ≠ '"' by decide), if_pos rfl, if_pos rfl,
    e1, e2, e3, e4, if_true]

theorem parseStringBody_escapeList (l : List Char) (rest : List Char) :
    parseStringBody (l.flatMap escapeChar ++ '"' :: rest) = some (l, rest) := by
  induction l with
  | nil => exact parseStringBody_quote rest
  | cons c l ih =>
    rw [List.flatMap_cons, List.append_assoc]
    by_cases hc1 : c = '"'
    · rw [show escapeChar c = ['\\', '"'] by rw [hc1]; rfl]
      rw [List.cons_append, List.cons_append, List.nil_append,
        parseStringBody_esc '"' '"' _ (by decide) rfl, ih, hc1]
    · by_cases hc2 : c = '\\'
      · rw [show escapeChar c = ['\\', '\\'] by rw [hc2]; rfl]
        rw [List.cons_append, List.cons_append, List.nil_append,
          parseStringBody_esc '\\' '\\' _ (by decide) rfl, ih, hc2]
      · by_cases hc3 : c = '\x08'
        · rw [show escapeChar c = ['\\', 'b'] by rw [hc3]; rfl]
          rw [List.cons_append, List.cons_append, List.nil_append,
            parseStringBody_esc 'b' '\x08' _ (by decide) rfl, ih, hc3]
        · by_cases hc4 : c = '\x0c'
          · rw [show escapeChar c = ['\\', 'f'] by rw [hc4]; rfl]
            rw [List.cons_append, List.cons_append, List.nil_append,
              parseStringBody_esc 'f' '\x0c' _ (by decide) rfl, ih, hc4]
          · by_cases hc5 : c = '\n'
            · rw [show escapeChar c = ['\\', 'n'] by rw [hc5]; rfl]
              rw [List.cons_append, List.cons_append, List.nil_append,
                parseStringBody_esc 'n' '\n' _ (by decide) rfl, ih, hc5]
            · by_cases hc6 : c = '\r'
              · rw [show escapeChar c = ['\\', 'r'] by rw [hc6]; rfl]
                rw [List.cons_append, List.cons_append, List.nil_append,
                  parseStringBody_esc 'r' '\r' _ (by decide) rfl, ih, hc6]
              · by_cases hc7 : c = '\t'
                · rw [show escapeChar c = ['\\', 't'] by rw [hc7]; rfl]
                  rw [List.cons_append, List.cons_append, List.nil_append,
                    parseStringBody_esc 't' '\t' _ (by decide) rfl, ih, hc7]
                · by_cases hc8 : c.toNat < 0x20
                  · rw [show escapeChar c =
                        ['\\', 'u', '0', '0', digitChar (c.toNat / 16),
                          digitChar (c.toNat % 16)] by
                      unfold escapeChar
                      rw [if_neg hc1, if_neg hc2, if_neg hc3, if_neg hc4, if_neg hc5,
                        if_neg hc6, if_neg hc7, if_pos hc8]]
                    simp only [List.cons_append, List.nil_append]
                    rw [parseStringBody_hex '0' '0' _ _ 0 0 (c.toNat / 16) (c.toNat % 16) _
                      (by decide) (by decide) (hexVal_digitChar _ (by omega))
                      (hexVal_digitChar _ (Nat.mod_lt _ (by omega))), ih]
                    have e0 : 0 * 4096 + 0 * 256 + c.toNat / 16 * 16 + c.toNat % 16 =
                        c.toNat := by omega
                    rw [e0, Char.ofNat_toNat]
                  · rw [show escapeChar c = [c] by
                      unfold escapeChar
                      rw [if_neg hc1, if_neg hc2, if_neg hc3, if_neg hc4, if_neg hc5,
                        if_neg hc6, if_neg hc7, if_neg hc8]]
                    rw [List.singleton_append,
                      parseStringBody_plain c _ hc1 hc2 hc8, ih]

/-- The round trip for a quoted string, in the form the value parser uses. -/
theorem parseStringBody_quoteChars (s : String) (rest : List Char) :
    parseStringBody (s.data.flatMap escapeChar ++ '"' :: rest) = some (s.data, rest) :=
  parseStringBody_escapeList s.data rest

/-! ## Supporting lemmas: UTF-8 round trip -/

theorem utf8DecodeGo_ascii (fuel b : Nat) (rest : List Nat) (h : b < 0x80) :
    utf8DecodeGo (fuel + 1) (b :: rest) = Char.ofNat b :: utf8DecodeGo fuel rest := by
  simp only [utf8DecodeGo, if_pos h]

theorem utf8DecodeGo_two (fuel b b2 : Nat) (rest : List Nat)
    (hlo : 0xC0 ≤ b) (hhi : b < 0xE0) (hc : isCont b2 = true) :
    utf8DecodeGo (fuel + 1) (b :: b2 :: rest) =
      Char.ofNat ((b - 0xC0) * 64 + contVal b2) :: utf8DecodeGo fuel rest := by
  simp only [utf8DecodeGo, if_neg (show ¬b < 0x80 by omega),
    if_neg (show ¬b < 0xC0 by omega), if_pos hhi, hc, if_true]

theorem utf8DecodeGo_three (fuel b b2 b3 : Nat) (rest : List Nat)
    (hlo : 0xE0 ≤ b) (hhi : b < 0xF0) (hc2 : isCont b2 = true) (hc3 : isCont b3 = true) :
    utf8DecodeGo (fuel + 1) (b :: b2 :: b3 :: rest) =
      Char.ofNat ((b - 0xE0) * 4096 + contVal b2 * 64 + contVal b3) ::
        utf8DecodeGo fuel rest := by
  simp only [utf8DecodeGo, if_neg (show ¬b < 0x80 by omega),
    if_neg (show ¬b < 0xC0 by omega), if_neg (show ¬b < 0xE0 by omega), if_pos hhi,
    hc2, hc3, Bool.and_self, if_true]

theorem utf8DecodeGo_four (fuel b b2 b3 b4 : Nat) (rest : List Nat)
    (hlo : 0xF0 ≤ b) (hc2 : isCont b2 = true) (hc3 : isCont b3 = true)
    (hc4 : isCont b4 = true) :
    utf8DecodeGo (fuel + 1) (b :: b2 :: b3 :: b4 :: rest) =
      Char.ofNat ((b - 0xF0) * 262144 + contVal b2 * 4096 + contVal b3 * 64 + contVal b4) ::
        utf8DecodeGo fuel rest := by
  simp only [utf8DecodeGo, if_neg (show ¬b < 0x80 by omega),
    if_neg (show ¬b < 0xC0 by omega), if_neg (show ¬b < 0xE0 by omega),
    if_neg (show ¬b < 0xF0 by omega), hc2, hc3, hc4, Bool.and_self, if_true]

theorem char_valid_nat (c : Char) : Nat.isValidChar c.toNat := c.valid

theorem utf8EncodeCodepoint_len (t : Nat) :
    1 ≤ (utf8EncodeCodepoint t).length ∧ (utf8EncodeCodepoint t).length ≤ 4 := by
  unfold utf8EncodeCodepoint
  by_cases h1 : t < 0x80
  · rw [if_pos h1]; simp
  · rw [if_neg h1]
    by_cases h2 : t < 0x800
    · rw [if_pos h2]; simp
    · rw [if_neg h2]
      by_cases h3 : t < 0x10000
      · rw [if_pos h3]; simp
      · rw [if_neg h3]; simp

/-- Decoding inverts encoding, one scalar value at a time, for any fuel at
least the byte count. -/
theorem utf8DecodeGo_encode (l : List Char) :
    ∀ fuel, (l.flatMap fun c => utf8EncodeCodepoint c.toNat).length ≤ fuel →
      utf8DecodeGo fuel (l.flatMap fun c => utf8EncodeCodepoint c.toNat) = l := by
  induction l with
  | nil =>
    intro fuel _
    cases fuel <;> rfl
  | cons c l ih =>
    intro fuel hfuel
    rw [List.flatMap_cons] at hfuel ⊢
    have hv : Nat.isValidChar c.toNat := char_valid_nat c
    have hmax : c.toNat < 0x110000 := by
      rcases hv with h | h
      · omega
      · omega
    have hlen1 := utf8EncodeCodepoint_len c.toNat
    have hfuel1 : 1 ≤ fuel := by
      rw [List.length_append] at hfuel
      omega
    obtain ⟨f, rfl⟩ : ∃ f, fuel = f + 1 := ⟨fuel - 1, by omega⟩
    have hrest : (l.flatMap fun c => utf8EncodeCodepoint c.toNat).length ≤ f := by
      rw [List.length_append] at hfuel
      omega
    by_cases h1 : c.toNat < 0x80
    · rw [show utf8EncodeCodepoint c.toNat = [c.toNat] by
        unfold utf8EncodeCodepoint; rw [if_pos h1]]
      rw [List.singleton_append, utf8DecodeGo_ascii _ _ _ h1, Char.ofNat_toNat,
        ih f hrest]
    · by_cases h2 : c.toNat < 0x800
      · rw [show utf8EncodeCodepoint c.toNat =
            [0xC0 + c.toNat / 64, 0x80 + c.toNat % 64] by
          unfold utf8EncodeCodepoint; rw [if_neg h1, if_pos h2]]
        rw [List.cons_append, List.cons_append, List.nil_append]
        rw [utf8DecodeGo_two _ _ _ _ (by omega) (by omega)
          (by unfold isCont; simp only [Bool.and_eq_true, decide_eq_true_eq]; omega)]
        have e0 : (0xC0 + c.toNat / 64 - 0xC0) * 64 + contVal (0x80 + c.toNat % 64) =
            c.toNat := by unfold contVal; omega
        rw [e0, Char.ofNat_toNat, ih f hrest]
      · by_cases h3 : c.toNat < 0x10000
        · rw [show utf8EncodeCodepoint c.toNat =
              [0xE0 + c.toNat / 4096, 0x80 + c.toNat / 64 % 64, 0x80 + c.toNat % 64] by
            unfold utf8EncodeCodepoint; rw [if_neg h1, if_neg h2, if_pos h3]]
          rw [List.cons_append, List.cons_append, List.cons_append, List.nil_append]
          rw [utf8DecodeGo_three _ _ _ _ _ (by omega) (by omega)
            (by unfold isCont; simp only [Bool.and_eq_true, decide_eq_true_eq]; omega)
            (by unfold isCont; simp only [Bool.and_eq_true, decide_eq_true_eq]; omega)]
          have e0 : (0xE0 + c.toNat / 4096 - 0xE0) * 4096 +
              contVal (0x80 + c.toNat / 64 % 64) * 64 + contVal (0x80 + c.toNat % 64) =
              c.toNat := by unfold contVal; omega
          rw [e0, Char.ofNat_toNat, ih f hrest]
        · rw [show utf8EncodeCodepoint c.toNat =
              [0xF0 + c.toNat / 262144, 0x80 + c.toNat / 4096 % 64,
               0x80 + c.toNat / 64 % 64, 0x80 + c.toNat % 64] by
            unfold utf8EncodeCodepoint; rw [if_neg h1, if_neg h2, if_neg h3]]
          rw [List.cons_append, List.cons_append, List.cons_append, List.cons_append,
            List.nil_append]
          rw [utf8DecodeGo_four _ _ _ _ _ _ (by omega)
            (by unfold isCont; simp only [Bool.and_eq_true, decide_eq_true_eq]; omega)
            (by unfold isCont; simp only [Bool.and_eq_true, decide_eq_true_eq]; omega)
            (by unfold isCont; simp only [Bool.and_eq_true, decide_eq_true_eq]; omega)]
          have e0 : (0xF0 + c.toNat / 262144 - 0xF0) * 262144 +
              contVal (0x80 + c.toNat / 4096 % 64) * 4096 +
              contVal (0x80 + c.toNat / 64 % 64) * 64 + contVal (0x80 + c.toNat % 64) =
              c.toNat := by unfold contVal; omega
          rw [e0, Char.ofNat_toNat, ih f hrest]

/-- `TextDecoder` inverts `TextEncoder`. -/
theorem utf8Decode_encode (s : String) : utf8Decode (utf8Encode s) = s := by
  unfold utf8Decode utf8Encode utf8DecodeChars
  rw [utf8DecodeGo_encode s.data _ (le_refl _)]

/-! ## Supporting definitions and lemmas for the stringify/parse round trip -/

mutual

/-- Fuel sufficient for `parseValue` on the output of `jsonStringifyChars`. -/
def needFuel : JSValue → Nat
  | .vArr vs => needFuelElems vs + 1
  | .vObj fs => needFuelFields fs + 1
  | _ => 1

def needFuelElems : List JSValue → Nat
  | [] => 1
  | v :: vs => max (needFuel v) (needFuelElems vs) + 1

def needFuelFields : List (String × JSValue) → Nat
  | [] => 1
  | (_, v) :: fs => max (needFuel v) (needFuelFields fs) + 1

end

mutual

/-- Is the value modelled exactly by its JSON text?  Binary (`vBytes`)
nodes are not JSON-serializable as themselves, and non-integral number
nodes (`vNumDec`) stand for IEEE doubles whose arithmetic is outside the
model, so the round-trip theorem is restricted to values free of both. -/
def exactJson : JSValue → Bool
  | .vBytes _ => false
  | .vNumDec _ _ _ => false
  | .vArr vs => exactJsonElems vs
  | .vObj fs => exactJsonFields fs
  | _ => true

def exactJsonElems : List JSValue → Bool
  | [] => true
  | v :: vs => exactJson v && exactJsonElems vs

def exactJsonFields : List (String × JSValue) → Bool
  | [] => true
  | (_, v) :: fs => exactJson v && exactJsonFields fs

end

/-- Characters that can begin the JSON rendering of a value. -/
def jsonHeadOk : List Char → Prop
  | [] => False
  | c :: _ =>
      c = 'n' ∨ c = 't' ∨ c = 'f' ∨ c = '"' ∨ c = '[' ∨ c = '\x7b' ∨ c = '-' ∨
        (48 ≤ c.toNat ∧ c.toNat ≤ 57)

/-- A list beginning with a closing bracket (what follows the last element
of an array / the last member of an object). -/
def closeStart : List Char → Prop
  | [] => False
  | c :: _ => c = ']' ∨ c = '\x7d'

theorem intToChars_head (n : Int) :
    ∃ c cs, intToChars n = c :: cs ∧ (c = '-' ∨ (48 ≤ c.toNat ∧ c.toNat ≤ 57)) := by
  unfold intToChars
  by_cases hn : n < 0
  · exact ⟨'-', natToChars n.natAbs, by rw [if_pos hn], Or.inl rfl⟩
  · rw [if_neg hn]
    cases hcs : natToChars n.natAbs with
    | nil => exact absurd hcs (natToChars_ne_nil _)
    | cons c cs =>
      exact ⟨c, cs, rfl,
        Or.inr (natToChars_digits _ c (by rw [hcs]; exact List.mem_cons_self c cs))⟩

theorem jsonStringifyChars_headOk (v : JSValue) :
    jsonHeadOk (jsonStringifyChars v) := by
  cases v with
  | vNull => exact Or.inl rfl
  | vBool b => cases b with
    | true => exact Or.inr (Or.inl rfl)
    | false => exact Or.inr (Or.inr (Or.inl rfl))
  | vNum n =>
    obtain ⟨c, cs, hcs, hc⟩ := intToChars_head n
    rw [show jsonStringifyChars (.vNum n) = intToChars n from rfl, hcs]
    rcases hc with h | h
    · exact Or.inr (Or.inr (Or.inr (Or.inr (Or.inr (Or.inr (Or.inl h))))))
    · exact Or.inr (Or.inr (Or.inr (Or.inr (Or.inr (Or.inr (Or.inr h))))))
  | vNumDec neg ip suffix =>
    cases neg with
    | true =>
      show jsonHeadOk ('-' :: (natToChars ip ++ suffix.data))
      exact Or.inr (Or.inr (Or.inr (Or.inr (Or.inr (Or.inr (Or.inl rfl))))))
    | false =>
      cases hcs : natToChars ip with
      | nil => exact absurd hcs (natToChars_ne_nil _)
      | cons c cs =>
        show jsonHeadOk (natToChars ip ++ suffix.data)
        rw [hcs, List.cons_append]
        exact Or.inr (Or.inr (Or.inr (Or.inr (Or.inr (Or.inr (Or.inr
          (natToChars_digits ip c (by rw [hcs]; exact List.mem_cons_self c cs))))))))
  | vStr s => exact Or.inr (Or.inr (Or.inr (Or.inl rfl)))
  | vBytes bs => exact Or.inr (Or.inr (Or.inr (Or.inr (Or.inr (Or.inl rfl)))))
  | vArr vs => exact Or.inr (Or.inr (Or.inr (Or.inr (Or.inl rfl))))
  | vObj fs => exact Or.inr (Or.inr (Or.inr (Or.inr (Or.inr (Or.inl rfl)))))

theorem jsonStringifyChars_ne_nil (v : JSValue) : jsonStringifyChars v ≠ [] := by
  intro h
  have := jsonStringifyChars_headOk v
  rw [h] at this
  exact this

theorem headOk_facts (c : Char) (cs : List Char) (h : jsonHeadOk (c :: cs)) :
    ¬(c = ' ' ∨ c = '\t' ∨ c = '\n' ∨ c = '\r') ∧ c ≠ ']' ∧ c ≠ '\x7d' ∧ c ≠ ',' := by
  have h32 : (' ' : Char).toNat = 32 := rfl
  have h9 : ('\t' : Char).toNat = 9 := rfl
  have h10 : ('\n' : Char).toNat = 10 := rfl
  have h13 : ('\r' : Char).toNat = 13 := rfl
  rcases h with h | h | h | h | h | h | h | h <;> subst_vars <;>
    first
      | exact ⟨by decide, by decide, by decide, by decide⟩
      | refine ⟨fun hw => ?_, ?_, ?_, ?_⟩
        · rcases hw with hw | hw | hw | hw <;>
            exact absurd (congrArg Char.toNat hw) (by omega)
        · exact char_ne_of_toNat_ne (by simp only [show (']' : Char).toNat = 93 from rfl]; omega)
        · exact char_ne_of_toNat_ne (by simp only [show ('\x7d' : Char).toNat = 125 from rfl]; omega)
        · exact char_ne_of_toNat_ne (by simp only [show (',' : Char).toNat = 44 from rfl]; omega)

theorem skipWs_cons_no (c : Char) (cs : List Char)
    (h : ¬(c = ' ' ∨ c = '\t' ∨ c = '\n' ∨ c = '\r')) : skipWs (c :: cs) = c :: cs := by
  have e : skipWs (c :: cs) =
      if c = ' ' || c = '\t' || c = '\n' || c = '\r' then skipWs cs else c :: cs := rfl
  rw [e, if_neg (by
    simp only [Bool.or_eq_true, decide_eq_true_eq]
    tauto)]

theorem skipWs_headOk (l : List Char) (h : jsonHeadOk l) : skipWs l = l := by
  cases l with
  | nil => rfl
  | cons c cs => exact skipWs_cons_no c cs (headOk_facts c cs h).1

theorem skipWs_stringify_append (v : JSValue) (rest : List Char) :
    skipWs (jsonStringifyChars v ++ rest) = jsonStringifyChars v ++ rest := by
  have h := jsonStringifyChars_headOk v
  cases hcs : jsonStringifyChars v with
  | nil => exact absurd hcs (jsonStringifyChars_ne_nil v)
  | cons c cs =>
    rw [hcs] at h
    rw [List.cons_append]
    exact skipWs_cons_no c _ (headOk_facts c cs h).1

theorem skipWs_closeStart (l : List Char) (h : closeStart l) : skipWs l = l := by
  cases l with
  | nil => exact absurd h (by simp [closeStart])
  | cons c cs =>
    refine skipWs_cons_no c cs fun hw => ?_
    rcases h with h | h <;> subst h <;>
      rcases hw with hw | hw | hw | hw <;> exact absurd hw (by decide)

theorem closeStart_numeralBoundary (l : List Char) (h : closeStart l) :
    numeralBoundary l := by
  cases l with
  | nil => trivial
  | cons c cs =>
    rcases h with h | h <;> subst h <;>
      simp only [numeralBoundary] <;> refine ⟨by decide, by decide, by decide, by decide⟩

theorem numHead_ne (c : Char) (h : c = '-' ∨ (48 ≤ c.toNat ∧ c.toNat ≤ 57)) :
    c ≠ 'n' ∧ c ≠ 't' ∧ c ≠ 'f' ∧ c ≠ '"' ∧ c ≠ '[' ∧ c ≠ '\x7b' := by
  rcases h with h | h
  · subst h
    exact ⟨by decide, by decide, by decide, by decide, by decide, by decide⟩
  · refine ⟨?_, ?_, ?_, ?_, ?_, ?_⟩ <;>
      refine char_ne_of_toNat_ne ?_
    · simp only [show ('n' : Char).toNat = 110 from rfl]; omega
    · simp only [show ('t' : Char).toNat = 116 from rfl]; omega
    · simp only [show ('f' : Char).toNat = 102 from rfl]; omega
    · simp only [show ('"' : Char).toNat = 34 from rfl]; omega
    · simp only [show ('[' : Char).toNat = 91 from rfl]; omega
    · simp only [show ('\x7b' : Char).toNat = 123 from rfl]; omega

/-! ## Parser unfolding lemmas -/

theorem parseValue_null (fuel : Nat) (rest : List Char) :
    parseValue (fuel + 1) ('n' :: 'u' :: 'l' :: 'l' :: rest) = some (.vNull, rest) := rfl

theorem parseValue_true (fuel : Nat) (rest : List Char) :
    parseValue (fuel + 1) ('t' :: 'r' :: 'u' :: 'e' :: rest) = some (.vBool true, rest) := rfl

theorem parseValue_false (fuel : Nat) (rest : List Char) :
    parseValue (fuel + 1) ('f' :: 'a' :: 'l' :: 's' :: 'e' :: rest) =
      some (.vBool false, rest) := rfl

theorem parseValue_quote (fuel : Nat) (r : List Char) :
    parseValue (fuel + 1) ('"' :: r) =
      (match parseStringBody r with
       | some (s, r2) => some (.vStr ⟨s⟩, r2)
       | none => none) := rfl

theorem parseValue_bracket (fuel : Nat) (r : List Char) :
    parseValue (fuel + 1) ('[' :: r) =
      (match skipWs r with
       | [] => none
       | c2 :: r2 =>
         if c2 = ']' then some (.vArr [], r2)
         else
           match parseElems fuel (c2 :: r2) with
           | some (vs, r3) =>
             (match skipWs r3 with
              | c4 :: r4 => if c4 = ']' then some (.vArr vs, r4) else none
              | [] => none)
           | none => none) := rfl

theorem parseValue_brace (fuel : Nat) (r : List Char) :
    parseValue (fuel + 1) ('\x7b' :: r) =
      (match skipWs r with
       | [] => none
       | c2 :: r2 =>
         if c2 = '\x7d' then some (.vObj [], r2)
         else
           match parseFields fuel (c2 :: r2) with
           | some (fs, r3) =>
             (match skipWs r3 with
              | c4 :: r4 => if c4 = '\x7d' then some (.vObj fs, r4) else none
              | [] => none)
           | none => none) := rfl

theorem parseElems_succ (fuel : Nat) (input : List Char) :
    parseElems (fuel + 1) input =
      (match parseValue fuel (skipWs input) with
       | some (v, r) =>
         (match skipWs r with
          | [] => some ([v], [])
          | c2 :: r2 =>
            if c2 = ',' then
              match parseElems fuel r2 with
              | some (vs, r3) => some (v :: vs, r3)
              | none => none
            else some ([v], c2 :: r2))
       | none => none) := rfl

theorem parseFields_succ (fuel : Nat) (input : List Char) :
    parseFields (fuel + 1) input =
      (match skipWs input with
       | [] => none
       | c :: r =>
         if c = '"' then
           match parseStringBody r with
           | some (k, r2) =>
             (match skipWs r2 with
              | [] => none
              | c2 :: r3 =>
                if c2 = ':' then
                  match parseValue fuel (skipWs r3) with
                  | some (v, r4) =>
                    (match skipWs r4 with
                     | [] => some ([(⟨k⟩, v)], [])
                     | c3 :: r5 =>
                       if c3 = ',' then
                         match parseFields fuel r5 with
                         | some (fs, r6) => some ((⟨k⟩, v) :: fs, r6)
                         | none => none
                       else some ([(⟨k⟩, v)], c3 :: r5))
                  | none => none
                else none)
           | none => none
         else none) := rfl

theorem parseValue_succ (fuel : Nat) (c : Char) (r : List Char) :
    parseValue (fuel + 1) (c :: r) =
      (if c = 'n' then
        match r with
        | 'u' :: 'l' :: 'l' :: r2 => some (.vNull, r2)
        | _ => none
      else if c = 't' then
        match r with
        | 'r' :: 'u' :: 'e' :: r2 => some (.vBool true, r2)
        | _ => none
      else if c = 'f' then
        match r with
        | 'a' :: 'l' :: 's' :: 'e' :: r2 => some (.vBool false, r2)
        | _ => none
      else if c = '"' then
        match parseStringBody r with
        | some (s, r2) => some (.vStr ⟨s⟩, r2)
        | none => none
      else if c = '[' then
        match skipWs r with
        | [] => none
        | c2 :: r2 =>
          if c2 = ']' then some (.vArr [], r2)
          else
            match parseElems fuel (c2 :: r2) with
            | some (vs, r3) =>
              (match skipWs r3 with
               | c4 :: r4 => if c4 = ']' then some (.vArr vs, r4) else none
               | [] => none)
            | none => none
      else if c = '\x7b' then
        match skipWs r with
        | [] => none
        | c2 :: r2 =>
          if c2 = '\x7d' then some (.vObj [], r2)
          else
            match parseFields fuel (c2 :: r2) with
            | some (fs, r3) =>
              (match skipWs r3 with
               | c4 :: r4 => if c4 = '\x7d' then some (.vObj fs, r4) else none
               | [] => none)
            | none => none
      else parseNumber (c :: r)) := rfl

theorem parseValue_other (fuel : Nat) (c : Char) (r : List Char)
    (h1 : c ≠ 'n') (h2 : c ≠ 't') (h3 : c ≠ 'f') (h4 : c ≠ '"')
    (h5 : c ≠ '[') (h6 : c ≠ '\x7b') :
    parseValue (fuel + 1) (c :: r) = parseNumber (c :: r) := by
  rw [parseValue_succ]
  rw [if_neg h1, if_neg h2, if_neg h3, if_neg h4, if_neg h5, if_neg h6]

/-! ## The stringify/parse round trip -/

theorem one_le_needFuel (v : JSValue) : 1 ≤ needFuel v := by
  cases v <;> unfold needFuel <;> omega

theorem one_le_needFuelElems (vs : List JSValue) : 1 ≤ needFuelElems vs := by
  cases vs <;> unfold needFuelElems <;> omega

theorem one_le_needFuelFields (fs : List (String × JSValue)) : 1 ≤ needFuelFields fs := by
  cases fs with
  | nil => unfold needFuelFields; omega
  | cons f fs => obtain ⟨k, v⟩ := f; unfold needFuelFields; omega

theorem comma_numeralBoundary (l : List Char) : numeralBoundary (',' :: l) := by
  simp only [numeralBoundary]
  refine ⟨by decide, by decide, by decide, by decide⟩

theorem commaJoin_one (x : List Char) : commaJoin [x] = x := rfl

theorem commaJoin_two (x y : List Char) (r : List (List Char)) :
    commaJoin (x :: y :: r) = x ++ ',' :: commaJoin (y :: r) := rfl

theorem commaJoin_cons (x : List Char) (L : List (List Char)) (h : L ≠ []) :
    commaJoin (x :: L) = x ++ ',' :: commaJoin L := by
  cases L with
  | nil => exact absurd rfl h
  | cons y r => exact commaJoin_two x y r

theorem commaJoin_stringifyElems_head (v : JSValue) (vs : List JSValue) :
    ∃ c cs, commaJoin (jsonStringifyElems (v :: vs)) = c :: cs ∧ jsonHeadOk (c :: cs) := by
  cases hsv : jsonStringifyChars v with
  | nil => exact absurd hsv (jsonStringifyChars_ne_nil v)
  | cons c cs' =>
    have hh := jsonStringifyChars_headOk v
    rw [hsv] at hh
    cases vs with
    | nil =>
      refine ⟨c, cs', ?_, by simpa [jsonHeadOk] using hh⟩
      rw [show jsonStringifyElems [v] = [jsonStringifyChars v] from rfl,
        commaJoin_one, hsv]
    | cons v2 vs' =>
      refine ⟨c, cs' ++ ',' :: commaJoin (jsonStringifyElems (v2 :: vs')),
        ?_, by simpa [jsonHeadOk] using hh⟩
      rw [show jsonStringifyElems (v :: v2 :: vs') =
          jsonStringifyChars v :: jsonStringifyElems (v2 :: vs') from rfl,
        show jsonStringifyElems (v2 :: vs') =
          jsonStringifyChars v2 :: jsonStringifyElems vs' from rfl,
        commaJoin_two, hsv, List.cons_append]

theorem commaJoin_stringifyFields_head (k : String) (v : JSValue)
    (fs : List (String × JSValue)) :
    ∃ cs, commaJoin (jsonStringifyFields ((k, v) :: fs)) = '"' :: cs := by
  cases fs with
  | nil =>
    refine ⟨(k.data.flatMap escapeChar ++ ['"']) ++ ':' :: jsonStringifyChars v, ?_⟩
    rw [show jsonStringifyFields [(k, v)] =
        [quoteChars k ++ ':' :: jsonStringifyChars v] from rfl, commaJoin_one]
    unfold quoteChars
    simp [List.append_assoc]
  | cons f2 fs' =>
    refine ⟨((k.data.flatMap escapeChar ++ ['"']) ++ ':' :: jsonStringifyChars v) ++
        ',' :: commaJoin (jsonStringifyFields (f2 :: fs')), ?_⟩
    rw [show jsonStringifyFields ((k, v) :: f2 :: fs') =
        (quoteChars k ++ ':' :: jsonStringifyChars v) ::
          jsonStringifyFields (f2 :: fs') from rfl]
    obtain ⟨k2, v2⟩ := f2
    rw [show jsonStringifyFields ((k2, v2) :: fs') =
        (quoteChars k2 ++ ':' :: jsonStringifyChars v2) ::
          jsonStringifyFields fs' from rfl, commaJoin_two]
    unfold quoteChars
    simp [List.append_assoc]

mutual

theorem parseValue_stringify (v : JSValue) (fuel : Nat) (rest : List Char)
    (hb : exactJson v = true) (hf : needFuel v ≤ fuel) (hr : numeralBoundary rest) :
    parseValue fuel (jsonStringifyChars v ++ rest) = some (v, rest) := by
  obtain ⟨f, rfl⟩ : ∃ f, fuel = f + 1 :=
    ⟨fuel - 1, by have := one_le_needFuel v; omega⟩
  cases v with
  | vNull => exact parseValue_null f rest
  | vBool b =>
    cases b with
    | true => exact parseValue_true f rest
    | false => exact parseValue_false f rest
  | vNum n =>
    obtain ⟨c, cs, hcs, hc⟩ := intToChars_head n
    obtain ⟨g1, g2, g3, g4, g5, g6⟩ := numHead_ne c hc
    show parseValue (f + 1) (intToChars n ++ rest) = _
    rw [hcs, List.cons_append, parseValue_other f c _ g1 g2 g3 g4 g5 g6,
      ← List.cons_append, ← hcs, parseNumber_intToChars n rest hr]
  | vStr s =>
    show parseValue (f + 1) (quoteChars s ++ rest) = _
    have e : quoteChars s ++ rest =
        '"' :: (s.data.flatMap escapeChar ++ '"' :: rest) := by
      unfold quoteChars
      simp [List.append_assoc]
    rw [e, parseValue_quote, parseStringBody_quoteChars]
  | vBytes bs => simp [exactJson] at hb
  | vNumDec neg ip suffix => simp [exactJson] at hb
  | vArr vs =>
    show parseValue (f + 1)
        (('[' :: commaJoin (jsonStringifyElems vs) ++ [']']) ++ rest) = _
    have e : ('[' :: commaJoin (jsonStringifyElems vs) ++ [']']) ++ rest =
        '[' :: (commaJoin (jsonStringifyElems vs) ++ ']' :: rest) := by
      simp [List.append_assoc]
    rw [e, parseValue_bracket]
    cases vs with
    | nil =>
      rw [show commaJoin (jsonStringifyElems []) ++ ']' :: rest = ']' :: rest from rfl,
        skipWs_cons_no ']' rest (by decide)]
      simp only [if_true]
    | cons v vs' =>
      have hbe : exactJsonElems (v :: vs') = true := by
        simpa [exactJson] using hb
      have hfe : needFuelElems (v :: vs') ≤ f := by
        have : needFuel (JSValue.vArr (v :: vs')) = needFuelElems (v :: vs') + 1 := rfl
        omega
      obtain ⟨c, cs, hcs, hhead⟩ := commaJoin_stringifyElems_head v vs'
      have hfacts := headOk_facts c cs hhead
      rw [hcs, List.cons_append, skipWs_cons_no c _ hfacts.1]
      simp only []
      rw [if_neg hfacts.2.1, ← List.cons_append, ← hcs,
        parseElems_stringify (v :: vs') f (']' :: rest) (by simp) hbe hfe (Or.inl rfl)]
      simp only []
      rw [skipWs_cons_no ']' rest (by decide)]
      simp only [if_true]
  | vObj fs =>
    show parseValue (f + 1)
        (('\x7b' :: commaJoin (jsonStringifyFields fs) ++ ['\x7d']) ++ rest) = _
    have e : ('\x7b' :: commaJoin (jsonStringifyFields fs) ++ ['\x7d']) ++ rest =
        '\x7b' :: (commaJoin (jsonStringifyFields fs) ++ '\x7d' :: rest) := by
      simp [List.append_assoc]
    rw [e, parseValue_brace]
    cases fs with
    | nil =>
      rw [show commaJoin (jsonStringifyFields []) ++ '\x7d' :: rest =
          '\x7d' :: rest from rfl,
        skipWs_cons_no '\x7d' rest (by decide)]
      simp only [if_true]
    | cons field fs' =>
      obtain ⟨k, v⟩ := field
      have hbf : exactJsonFields ((k, v) :: fs') = true := by
        simpa [exactJson] using hb
      have hff : needFuelFields ((k, v) :: fs') ≤ f := by
        have : needFuel (JSValue.vObj ((k, v) :: fs')) =
            needFuelFields ((k, v) :: fs') + 1 := rfl
        omega
      obtain ⟨cs, hcs⟩ := commaJoin_stringifyFields_head k v fs'
      rw [hcs, List.cons_append, skipWs_cons_no '"' _ (by decide)]
      simp only []
      rw [if_neg (by decide), ← List.cons_append, ← hcs,
        parseFields_stringify ((k, v) :: fs') f ('\x7d' :: rest) (by simp) hbf hff
          (Or.inr rfl)]
      simp only []
      rw [skipWs_cons_no '\x7d' rest (by decide)]
      simp only [if_true]

theorem parseElems_stringify (vs : List JSValue) (fuel : Nat) (rest : List Char)
    (hne : vs ≠ []) (hb : exactJsonElems vs = true) (hf : needFuelElems vs ≤ fuel)
    (hc : closeStart rest) :
    parseElems fuel (commaJoin (jsonStringifyElems vs) ++ rest) = some (vs, rest) := by
  obtain ⟨f, rfl⟩ : ∃ f, fuel = f + 1 :=
    ⟨fuel - 1, by have := one_le_needFuelElems vs; omega⟩
  cases vs with
  | nil => exact absurd rfl hne
  | cons v vs' =>
    have hbv : exactJson v = true := by
      have : exactJsonElems (v :: vs') = (exactJson v && exactJsonElems vs') := rfl
      rw [this, Bool.and_eq_true] at hb
      exact hb.1
    have hbe' : exactJsonElems vs' = true := by
      have : exactJsonElems (v :: vs') = (exactJson v && exactJsonElems vs') := rfl
      rw [this, Bool.and_eq_true] at hb
      exact hb.2
    have hfv : needFuel v ≤ f := by
      have : needFuelElems (v :: vs') =
          max (needFuel v) (needFuelElems vs') + 1 := rfl
      omega
    have hfe' : needFuelElems vs' ≤ f := by
      have : needFuelElems (v :: vs') =
          max (needFuel v) (needFuelElems vs') + 1 := rfl
      omega
    rw [parseElems_succ]
    cases vs' with
    | nil =>
      rw [show jsonStringifyElems [v] = [jsonStringifyChars v] from rfl, commaJoin_one,
        skipWs_stringify_append,
        parseValue_stringify v f rest hbv hfv (closeStart_numeralBoundary rest hc)]
      simp only []
      rw [skipWs_closeStart rest hc]
      cases rest with
      | nil => exact absurd hc (by simp [closeStart])
      | cons c2 r2 =>
        simp only []
        rcases hc with h | h <;> subst h <;> rw [if_neg (by decide)]
    | cons v2 vs'' =>
      rw [show jsonStringifyElems (v :: v2 :: vs'') =
          jsonStringifyChars v :: jsonStringifyElems (v2 :: vs'') from rfl,
        commaJoin_cons _ _ (by
          rw [show jsonStringifyElems (v2 :: vs'') =
              jsonStringifyChars v2 :: jsonStringifyElems vs'' from rfl]
          simp),
        List.append_assoc, List.cons_append,
        skipWs_stringify_append,
        parseValue_stringify v f _ hbv hfv (comma_numeralBoundary _)]
      simp only []
      rw [skipWs_cons_no ',' _ (by decide)]
      simp only [if_true]
      rw [parseElems_stringify (v2 :: vs'') f rest (by simp) hbe' hfe' hc]

theorem parseFields_stringify (fs : List (String × JSValue)) (fuel : Nat) (rest : List Char)
    (hne : fs ≠ []) (hb : exactJsonFields fs = true) (hf : needFuelFields fs ≤ fuel)
    (hc : closeStart rest) :
    parseFields fuel (commaJoin (jsonStringifyFields fs) ++ rest) = some (fs, rest) := by
  obtain ⟨f, rfl⟩ : ∃ f, fuel = f + 1 :=
    ⟨fuel - 1, by have := one_le_needFuelFields fs; omega⟩
  cases fs with
  | nil => exact absurd rfl hne
  | cons field fs' =>
    obtain ⟨k, v⟩ := field
    have hbv : exactJson v = true := by
      have : exactJsonFields ((k, v) :: fs') = (exactJson v && exactJsonFields fs') := rfl
      rw [this, Bool.and_eq_true] at hb
      exact hb.1
    have hbf' : exactJsonFields fs' = true := by
      have : exactJsonFields ((k, v) :: fs') = (exactJson v && exactJsonFields fs') := rfl
      rw [this, Bool.and_eq_true] at hb
      exact hb.2
    have hfv : needFuel v ≤ f := by
      have : needFuelFields ((k, v) :: fs') =
          max (needFuel v) (needFuelFields fs') + 1 := rfl
      omega
    have hff' : needFuelFields fs' ≤ f := by
      have : needFuelFields ((k, v) :: fs') =
          max (needFuel v) (needFuelFields fs') + 1 := rfl
      omega
    rw [parseFields_succ]
    cases fs' with
    | nil =>
      have e : commaJoin (jsonStringifyFields [(k, v)]) ++ rest =
          '"' :: (k.data.flatMap escapeChar ++
            '"' :: (':' :: (jsonStringifyChars v ++ rest))) := by
        rw [show jsonStringifyFields [(k, v)] =
            [quoteChars k ++ ':' :: jsonStringifyChars v] from rfl, commaJoin_one]
        unfold quoteChars
        simp [List.append_assoc]
      rw [e, skipWs_cons_no '"' _ (by decide)]
      simp only [if_true]
      rw [parseStringBody_escapeList]
      simp only []
      rw [skipWs_cons_no ':' _ (by decide)]
      simp only [if_true]
      rw [skipWs_stringify_append,
        parseValue_stringify v f rest hbv hfv (closeStart_numeralBoundary rest hc)]
      simp only []
      rw [skipWs_closeStart rest hc]
      cases rest with
      | nil => exact absurd hc (by simp [closeStart])
      | cons c2 r2 =>
        simp only []
        rcases hc with h | h <;> subst h <;> rw [if_neg (by decide)]
    | cons f2 fs'' =>
      have hfne : jsonStringifyFields (f2 :: fs'') ≠ [] := by
        obtain ⟨k2, v2⟩ := f2
        rw [show jsonStringifyFields ((k2, v2) :: fs'') =
            (quoteChars k2 ++ ':' :: jsonStringifyChars v2) ::
              jsonStringifyFields fs'' from rfl]
        simp
      have e : commaJoin (jsonStringifyFields ((k, v) :: f2 :: fs'')) ++ rest =
          '"' :: (k.data.flatMap escapeChar ++
            '"' :: (':' :: (jsonStringifyChars v ++
              (',' :: (commaJoin (jsonStringifyFields (f2 :: fs'')) ++ rest))))) := by
        rw [show jsonStringifyFields ((k, v) :: f2 :: fs'') =
            (quoteChars k ++ ':' :: jsonStringifyChars v) ::
              jsonStringifyFields (f2 :: fs'') from rfl]
        cases hL : jsonStringifyFields (f2 :: fs'') with
        | nil => exact absurd hL hfne
        | cons y ys =>
          rw [commaJoin_two]
          unfold quoteChars
          simp [List.append_assoc]
      rw [e, skipWs_cons_no '"' _ (by decide)]
      simp only [if_true]
      rw [parseStringBody_escapeList]
      simp only []
      rw [skipWs_cons_no ':' _ (by decide)]
      simp only [if_true]
      rw [skipWs_stringify_append,
        parseValue_stringify v f _ hbv hfv (comma_numeralBoundary _)]
      simp only []
      rw [skipWs_cons_no ',' _ (by decide)]
      simp only [if_true]
      rw [parseFields_stringify (f2 :: fs'') f rest (by simp) hbf' hff' hc]

end

mutual

theorem needFuel_le (v : JSValue) : needFuel v ≤ (jsonStringifyChars v).length := by
  cases v with
  | vArr vs =>
    have h := needFuelElems_le vs
    have e1 : needFuel (JSValue.vArr vs) = needFuelElems vs + 1 := rfl
    have e2 : jsonStringifyChars (JSValue.vArr vs) =
        '[' :: commaJoin (jsonStringifyElems vs) ++ [']'] := rfl
    rw [e1, e2]
    simp only [List.cons_append, List.length_cons, List.length_append,
      List.length_singleton]
    omega
  | vObj fs =>
    have h := needFuelFields_le fs
    have e1 : needFuel (JSValue.vObj fs) = needFuelFields fs + 1 := rfl
    have e2 : jsonStringifyChars (JSValue.vObj fs) =
        '\x7b' :: commaJoin (jsonStringifyFields fs) ++ ['\x7d'] := rfl
    rw [e1, e2]
    simp only [List.cons_append, List.length_cons, List.length_append,
      List.length_singleton]
    omega
  | vNull =>
    have hp : 0 < (jsonStringifyChars JSValue.vNull).length :=
      List.length_pos.mpr (jsonStringifyChars_ne_nil _)
    have e1 : needFuel JSValue.vNull = 1 := rfl
    omega
  | vBool b =>
    have hp : 0 < (jsonStringifyChars (JSValue.vBool b)).length :=
      List.length_pos.mpr (jsonStringifyChars_ne_nil _)
    have e1 : needFuel (JSValue.vBool b) = 1 := rfl
    omega
  | vNum n =>
    have hp : 0 < (jsonStringifyChars (JSValue.vNum n)).length :=
      List.length_pos.mpr (jsonStringifyChars_ne_nil _)
    have e1 : needFuel (JSValue.vNum n) = 1 := rfl
    omega
  | vStr s =>
    have hp : 0 < (jsonStringifyChars (JSValue.vStr s)).length :=
      List.length_pos.mpr (jsonStringifyChars_ne_nil _)
    have e1 : needFuel (JSValue.vStr s) = 1 := rfl
    omega
  | vBytes bs =>
    have hp : 0 < (jsonStringifyChars (JSValue.vBytes bs)).length :=
      List.length_pos.mpr (jsonStringifyChars_ne_nil _)
    have e1 : needFuel (JSValue.vBytes bs) = 1 := rfl
    omega
  | vNumDec neg ip suffix =>
    have hp : 0 < (jsonStringifyChars (JSValue.vNumDec neg ip suffix)).length :=
      List.length_pos.mpr (jsonStringifyChars_ne_nil _)
    have e1 : needFuel (JSValue.vNumDec neg ip suffix) = 1 := rfl
    omega

theorem needFuelElems_le (vs : List JSValue) :
    needFuelElems vs ≤ (commaJoin (jsonStringifyElems vs)).length + 1 := by
  cases vs with
  | nil =>
    have e1 : needFuelElems ([] : List JSValue) = 1 := rfl
    omega
  | cons v vs' =>
    have hv := needFuel_le v
    have e1 : needFuelElems (v :: vs') = max (needFuel v) (needFuelElems vs') + 1 := rfl
    cases vs' with
    | nil =>
      have e2 : needFuelElems ([] : List JSValue) = 1 := rfl
      have e3 : commaJoin (jsonStringifyElems [v]) = jsonStringifyChars v := by
        rw [show jsonStringifyElems [v] = [jsonStringifyChars v] from rfl, commaJoin_one]
      have hp : 0 < (jsonStringifyChars v).length :=
        List.length_pos.mpr (jsonStringifyChars_ne_nil _)
      rw [e1, e2, e3]
      omega
    | cons v2 vs'' =>
      have hrec := needFuelElems_le (v2 :: vs'')
      have e3 : commaJoin (jsonStringifyElems (v :: v2 :: vs'')) =
          jsonStringifyChars v ++ ',' :: commaJoin (jsonStringifyElems (v2 :: vs'')) := by
        rw [show jsonStringifyElems (v :: v2 :: vs'') =
            jsonStringifyChars v :: jsonStringifyElems (v2 :: vs'') from rfl,
          commaJoin_cons _ _ (by
            rw [show jsonStringifyElems (v2 :: vs'') =
                jsonStringifyChars v2 :: jsonStringifyElems vs'' from rfl]
            simp)]
      rw [e1, e3]
      simp only [List.length_append, List.length_cons]
      omega

theorem needFuelFields_le (fs : List (String × JSValue)) :
    needFuelFields fs ≤ (commaJoin (jsonStringifyFields fs)).length + 1 := by
  cases fs with
  | nil =>
    have e1 : needFuelFields ([] : List (String × JSValue)) = 1 := rfl
    omega
  | cons field fs' =>
    obtain ⟨k, v⟩ := field
    have hv := needFuel_le v
    have e1 : needFuelFields ((k, v) :: fs') =
        max (needFuel v) (needFuelFields fs') + 1 := rfl
    cases fs' with
    | nil =>
      have e2 : needFuelFields ([] : List (String × JSValue)) = 1 := rfl
      have e3 : commaJoin (jsonStringifyFields [(k, v)]) =
          quoteChars k ++ ':' :: jsonStringifyChars v := by
        rw [show jsonStringifyFields [(k, v)] =
            [quoteChars k ++ ':' :: jsonStringifyChars v] from rfl, commaJoin_one]
      rw [e1, e2, e3]
      simp only [List.length_append, List.length_cons]
      omega
    | cons f2 fs'' =>
      have hrec := needFuelFields_le (f2 :: fs'')
      have e3 : commaJoin (jsonStringifyFields ((k, v) :: f2 :: fs'')) =
          (quoteChars k ++ ':' :: jsonStringifyChars v) ++
            ',' :: commaJoin (jsonStringifyFields (f2 :: fs'')) := by
        rw [show jsonStringifyFields ((k, v) :: f2 :: fs'') =
            (quoteChars k ++ ':' :: jsonStringifyChars v) ::
              jsonStringifyFields (f2 :: fs'') from rfl,
          commaJoin_cons _ _ (by
            obtain ⟨k2, v2⟩ := f2
            rw [show jsonStringifyFields ((k2, v2) :: fs'') =
                (quoteChars k2 ++ ':' :: jsonStringifyChars v2) ::
                  jsonStringifyFields fs'' from rfl]
            simp)]
      rw [e1, e3]
      simp only [List.length_append, List.length_cons]
      omega

end

/-- `JSON.parse` inverts `JSON.stringify` on exactly-modelled values. -/
theorem jsonParse_stringify (v : JSValue) (hb : exactJson v = true) :
    jsonParse (jsonStringify v) = some v := by
  unfold jsonParse jsonStringify
  rw [show (⟨jsonStringifyChars v⟩ : String).data = jsonStringifyChars v from rfl,
    skipWs_headOk _ (jsonStringifyChars_headOk v)]
  have h := parseValue_stringify v ((jsonStringifyChars v).length + 1) [] hb
    (le_trans (needFuel_le v) (by omega)) trivial
  rw [List.append_nil] at h
  rw [h]
  simp only [if_true]
  rfl

/-! ## Codec round-trip infrastructure for the claims -/

theorem decodePayload_utf8 (w : String) (m : SerializationMode) :
    decodePayload (utf8Encode w) m =
      (match m with
       | .string => .vStr w
       | _ =>
         match jsonParse w with
         | some v => v
         | none => .vStr w) := by
  cases m <;> simp only [decodePayload, utf8Decode_encode]

/-- Representability as the specification claim words it: a value lies in a
mode's text/structured grammar.  Following §4.2 of the spec, under `String`
the grammar is plain text (only strings are representable as themselves);
under `Auto` strings pass through unchanged and structured values are
serialized, so every exactly-modelled value counts; under `Json` every
exactly-modelled value is serialized.  Binary payloads are never decoded
back to binary (decode always produces text or structure), so they are not
representable as themselves in any mode; non-integral numbers stand for
IEEE doubles outside the model and are likewise excluded. -/
def representableSpec : JSValue → SerializationMode → Prop
  | .vBytes _, _ => False
  | .vStr _, .string => True
  | _, .string => False
  | v, .auto => exactJson v = true
  | v, .json => exactJson v = true

/-- The amended representability predicate: as `representableSpec`, except
that under `Auto` a string is only representable when it does not itself
parse as JSON (such strings are re-interpreted as structured values by the
decoder, so they cannot round-trip). -/
def representable : JSValue → SerializationMode → Prop
  | .vBytes _, _ => False
  | .vStr _, .string => True
  | _, .string => False
  | .vStr s, .auto => jsonParse s = none
  | v, .auto => exactJson v = true
  | v, .json => exactJson v = true

/-! ## Handler lemmas -/

theorem mkPublisherId_ne_empty (rand : String) (created : Nat) :
    mkPublisherId rand created ≠ "" := by
  unfold mkPublisherId
  intro h
  have h2 := congrArg String.data h
  simp only [String.data_append] at h2
  exact absurd h2 (by simp [show ("self-" : String).data = ['s','e','l','f','-'] from rfl])

theorem tagMatches_self (pid : String) (h : pid ≠ "") :
    tagMatches (some pid) pid = true := by
  simp [tagMatches, h]

theorem recordPublish_self_mem (recent : List RecentPublish) (topic : String)
    (normalized : Wire) (now : Nat) :
    (⟨topic, fingerprint (wireBytes normalized), now⟩ : RecentPublish) ∈
      recordPublish recent topic normalized now := by
  simp only [recordPublish, List.filter_append]
  have hpred : (fun m : RecentPublish => ((now : Int) - (m.ts : Int) < 7000 : Bool))
      ⟨topic, fingerprint (wireBytes normalized), now⟩ = true := by
    simp only [decide_eq_true_eq]
    omega
  rw [show List.filter (fun m : RecentPublish => ((now : Int) - (m.ts : Int) < 7000 : Bool))
      [⟨topic, fingerprint (wireBytes normalized), now⟩] =
      [⟨topic, fingerprint (wireBytes normalized), now⟩] from by
    simp [List.filter, hpred]]
  rw [List.drop_append_of_le_length (by
    simp only [List.length_append, List.length_singleton]
    omega)]
  exact List.mem_append_right _ (List.mem_singleton.mpr rfl)

theorem fallbackHit_of_mem (recent : List RecentPublish) (msgTopic hash : String)
    (now window ts : Nat)
    (hmem : (⟨msgTopic, hash, ts⟩ : RecentPublish) ∈ recent)
    (hts : (now : Int) - (ts : Int) < window) :
    fallbackHit recent msgTopic hash now window = true := by
  unfold fallbackHit
  rw [List.find?_isSome]
  refine ⟨⟨msgTopic, hash, ts⟩, hmem, ?_⟩
  simp only [Bool.and_eq_true, decide_eq_true_eq]
  exact ⟨⟨trivial, trivial⟩, hts⟩

theorem handleMessage_fallback_none (topics : List String)
    (options : SubscriptionOptions) (ctxPid : String) (recent : List RecentPublish)
    (now : Nat) (msgTopic : String) (payload : List Nat)
    (hes : options.excludeSelf = true)
    (hhit : fallbackHit recent msgTopic (fingerprint payload) now
      (options.selfWindowMs.getD 100) = true) :
    handleMessage topics options ctxPid recent now msgTopic payload none = none := by
  by_cases hm : msgTopic ∈ topics <;> simp [handleMessage, hm, hes, hhit]

theorem handleMessage_no_hit_deliver (topics : List String)
    (options : SubscriptionOptions) (ctxPid : String) (recent : List RecentPublish)
    (now : Nat) (msgTopic : String) (payload : List Nat)
    (hm : msgTopic ∈ topics)
    (hhit : fallbackHit recent msgTopic (fingerprint payload) now
      (options.selfWindowMs.getD 100) = false) :
    handleMessage topics options ctxPid recent now msgTopic payload none =
      some (decodePayload payload (options.serializationMode.getD .auto)) := by
  simp [handleMessage, hm, hhit, tagMatches]

theorem fallbackHit_old_singleton (topic hash : String) (t0 now window : Nat)
    (h : (window : Int) ≤ (now : Int) - (t0 : Int)) :
    fallbackHit [⟨topic, hash, t0⟩] topic hash now window = false := by
  have hn : List.find? (fun m : RecentPublish =>
      m.topic = topic && m.hash = hash && (now : Int) - (m.ts : Int) < window)
      [⟨topic, hash, t0⟩] = none := by
    rw [List.find?_eq_none]
    intro m hmem
    rw [List.mem_singleton] at hmem
    subst hmem
    simp only [Bool.and_eq_true, decide_eq_true_eq, not_and]
    intro _ _
    omega
  unfold fallbackHit
  rw [hn]
  rfl

/-! ## Claim theorems -/

/-- C1: for every subscription with `excludeSelf`, an inbound message whose
packet metadata carries a `publisherId` tag equal to this session's
generated `publisherIdentity` (`self-...`, never empty) is always
suppressed — the handler returns `none`, so neither the streaming callback
nor the latest-value slot is invoked — regardless of the contents of the
`recentSelfMessages` fingerprint buffer, the clock, the topic list and the
payload. -/
theorem identity_tag_always_suppressed (topics : List String)
    (options : SubscriptionOptions) (rand : String) (created : Nat)
    (recent : List RecentPublish) (now : Nat) (msgTopic : String)
    (payload : List Nat) (hes : options.excludeSelf = true) :
    handleMessage topics options (mkPublisherId rand created) recent now msgTopic
      payload (some (mkPublisherId rand created)) = none := by
  by_cases hm : msgTopic ∈ topics
  · simp [handleMessage, hm, hes,
      tagMatches_self _ (mkPublisherId_ne_empty rand created)]
  · simp [handleMessage, hm]

theorem identity_tag_always_suppressed_witness :
    handleMessage ["t"] ⟨true, none, none⟩ (mkPublisherId "abc" 5) [] 0 "t" [1, 2]
      (some (mkPublisherId "abc" 5)) = none :=
  identity_tag_always_suppressed ["t"] ⟨true, none, none⟩ "abc" 5 [] 0 "t" [1, 2] rfl

/-- C2: after every insert (`recordPublish`), the `recentSelfMessages`
buffer holds at most 100 entries, every entry is strictly younger than
7000 ms, and the result is a suffix of the age-pruned list — i.e. eviction
prunes by age first and then keeps the most recent entries (`slice(-100)`
keeps the tail). -/
theorem recentPublish_buffer_bounds (recent : List RecentPublish) (topic : String)
    (normalized : Wire) (now : Nat) :
    (recordPublish recent topic normalized now).length ≤ 100 ∧
    (recordPublish recent topic normalized now).all
      (fun m => ((now : Int) - (m.ts : Int) < 7000 : Bool)) = true ∧
    recordPublish recent topic normalized now <:+
      ((recent ++ [(⟨topic, fingerprint (wireBytes normalized), now⟩ : RecentPublish)]).filter
        fun m => ((now : Int) - (m.ts : Int) < 7000 : Bool)) := by
  refine ⟨?_, ?_, ?_⟩
  · simp only [recordPublish, List.length_drop]
    omega
  · rw [List.all_eq_true]
    intro m hm
    simp only [recordPublish] at hm
    have hmem := List.drop_subset _ _ hm
    exact (List.mem_filter.mp hmem).2
  · simp only [recordPublish]
    exact List.drop_suffix _ _

/-- C3 counterexample: with the default 100 ms window, a message whose
matching publish happened exactly 100 ms earlier (age = `selfWindowMs`,
i.e. "at most `selfWindowMs` milliseconds earlier" as the claim words it)
is NOT suppressed: the handler delivers it, because the source compares
`now - m.ts < selfWindowMs` strictly. -/
theorem fallback_window_boundary_counterexample :
    handleMessage ["t"] ⟨true, none, none⟩ "self-a-0"
      (recordPublish [] "t" (.str "x") 0) 100 "t" (utf8Encode "x") none =
      some (.vStr "x") := rfl

/-- C3 (amended): for a subscription with `excludeSelf` and an inbound
message with no identity tag whose topic and payload bytes equal those of
a publish made by this session: if the publish happened strictly less than
`selfWindowMs` milliseconds earlier (default 100), the message is
suppressed regardless of the rest of the buffer; and once at least
`selfWindowMs` milliseconds have elapsed (the window has elapsed), the
same topic and payload is delivered, not suppressed. -/
theorem fallback_window_suppression (topics : List String)
    (options : SubscriptionOptions) (ctxPid topic : String) (normalized : Wire)
    (recent : List RecentPublish) (t0 now : Nat)
    (hes : options.excludeSelf = true) :
    (((now : Int) - (t0 : Int) < (options.selfWindowMs.getD 100 : Nat)) →
      handleMessage topics options ctxPid (recordPublish recent topic normalized t0)
        now topic (wireBytes normalized) none = none) ∧
    (((options.selfWindowMs.getD 100 : Nat) : Int) ≤ (now : Int) - (t0 : Int) →
      topic ∈ topics →
      handleMessage topics options ctxPid (recordPublish [] topic normalized t0)
        now topic (wireBytes normalized) none =
        some (decodePayload (wireBytes normalized)
          (options.serializationMode.getD .auto))) := by
  constructor
  · intro hin
    exact handleMessage_fallback_none _ _ _ _ _ _ _ hes
      (fallbackHit_of_mem _ _ _ _ _ t0
        (recordPublish_self_mem recent topic normalized t0) hin)
  · intro hout hm
    have hbuf : recordPublish [] topic normalized t0 =
        [⟨topic, fingerprint (wireBytes normalized), t0⟩] := by
      simp only [recordPublish, List.nil_append]
      have hpred : ((t0 : Int) - (t0 : Int) < 7000) := by omega
      simp [List.filter, hpred]
    rw [hbuf]
    exact handleMessage_no_hit_deliver _ _ _ _ _ _ _ hm
      (fallbackHit_old_singleton topic (fingerprint (wireBytes normalized)) t0 now _ hout)

theorem fallback_window_suppression_witness :
    handleMessage ["t"] ⟨true, none, none⟩ "p" (recordPublish [] "t" (.str "x") 0)
      50 "t" (wireBytes (.str "x")) none = none ∧
    handleMessage ["t"] ⟨true, none, none⟩ "p" (recordPublish [] "t" (.str "x") 0)
      150 "t" (wireBytes (.str "x")) none =
      some (decodePayload (wireBytes (.str "x")) .auto) :=
  ⟨(fallback_window_suppression ["t"] ⟨true, none, none⟩ "p" "t" (.str "x") [] 0 50
      rfl).1 (by decide),
   (fallback_window_suppression ["t"] ⟨true, none, none⟩ "p" "t" (.str "x") [] 0 150
      rfl).2 (by decide) (by decide)⟩

/-- C4: the encoder satisfies the specification's examples: `encode(42,
Auto)` is the plain text `"42"`; `encode(42, Json)` is
`JSON.stringify(42)`, whose text is also `"42"`; and `encode({a:1},
String)` is the fixed non-JSON placeholder `"[object Object]"` (it is not
parseable JSON).  The encoder is a total Lean function, so it never
throws. -/
theorem codec_encode_examples :
    normalizePayload (.vNum 42) .auto = .str "42" ∧
    normalizePayload (.vNum 42) .json = .str (jsonStringify (.vNum 42)) ∧
    jsonStringify (.vNum 42) = "42" ∧
    normalizePayload (.vObj [("a", .vNum 1)]) .string = .str "[object Object]" ∧
    jsonParse "[object Object]" = none :=
  ⟨rfl, rfl, rfl, rfl, rfl⟩

/-- C5 counterexample: the claim as stated fails.  The string `"0"` is
representable in Auto's text grammar (strings pass through unchanged), yet
decoding its encoding under Auto yields the number `0`, not the string
`"0"` — the best-effort `JSON.parse` of the subscriber re-interprets it. -/
theorem codec_roundtrip_counterexample :
    representableSpec (.vStr "0") .auto ∧
    decodePayload (wireBytes (normalizePayload (.vStr "0") .auto)) .auto = .vNum 0 ∧
    (JSValue.vNum 0) ≠ .vStr "0" :=
  ⟨rfl, rfl, fun h => JSValue.noConfusion h⟩

/-- C5 (amended): decoding the encoding of `v` under mode `m` returns `v`
for every exactly-modelled value representable in mode `m`'s grammar — all
exactly-modelled values under Json; exactly-modelled values under Auto
except strings that themselves parse as JSON; strings under String mode.
And a binary payload encoded under Json is first UTF-8-decoded and that
text serialized as a structured string, so the receiver's structured parse
succeeds and yields the original text. -/
theorem codec_roundtrip (v : JSValue) (m : SerializationMode)
    (h : representable v m) :
    decodePayload (wireBytes (normalizePayload v m)) m = v ∧
    ∀ bs : List Nat,
      decodePayload (wireBytes (normalizePayload (.vBytes bs) .json)) .json =
        .vStr (utf8Decode bs) := by
  have hbin : ∀ bs : List Nat,
      decodePayload (wireBytes (normalizePayload (.vBytes bs) .json)) .json =
        .vStr (utf8Decode bs) := by
    intro bs
    show decodePayload (utf8Encode (jsonStringify (.vStr (utf8Decode bs)))) .json = _
    rw [decodePayload_utf8]
    simp only []
    rw [jsonParse_stringify (.vStr (utf8Decode bs)) rfl]
  refine ⟨?_, hbin⟩
  cases m with
  | string =>
    cases v with
    | vStr s =>
      show decodePayload (utf8Encode s) .string = .vStr s
      rw [decodePayload_utf8]
    | vNull => exact h.elim
    | vBool b => exact h.elim
    | vNum n => exact h.elim
    | vBytes bs => exact h.elim
    | vNumDec neg ip suffix => exact h.elim
    | vArr vs => exact h.elim
    | vObj fs => exact h.elim
  | auto =>
    cases v with
    | vBytes bs => exact h.elim
    | vNumDec neg ip suffix => exact Bool.noConfusion h
    | vStr s =>
      show decodePayload (utf8Encode s) .auto = .vStr s
      rw [decodePayload_utf8]
      simp only []
      rw [show jsonParse s = none from h]
    | vNull =>
      show decodePayload (utf8Encode (jsonStringify .vNull)) .auto = .vNull
      rw [decodePayload_utf8]
      simp only []
      rw [jsonParse_stringify .vNull rfl]
    | vBool b =>
      cases b with
      | true =>
        show decodePayload (utf8Encode (jsonStringify (.vBool true))) .auto = _
        rw [decodePayload_utf8]
        simp only []
        rw [jsonParse_stringify (.vBool true) rfl]
      | false =>
        show decodePayload (utf8Encode (jsonStringify (.vBool false))) .auto = _
        rw [decodePayload_utf8]
        simp only []
        rw [jsonParse_stringify (.vBool false) rfl]
    | vNum n =>
      show decodePayload (utf8Encode (jsonStringify (.vNum n))) .auto = .vNum n
      rw [decodePayload_utf8]
      simp only []
      rw [jsonParse_stringify (.vNum n) rfl]
    | vArr vs =>
      show decodePayload (utf8Encode (jsonStringify (.vArr vs))) .auto = .vArr vs
      rw [decodePayload_utf8]
      simp only []
      rw [jsonParse_stringify (.vArr vs) h]
    | vObj fs =>
      show decodePayload (utf8Encode (jsonStringify (.vObj fs))) .auto = .vObj fs
      rw [decodePayload_utf8]
      simp only []
      rw [jsonParse_stringify (.vObj fs) h]
  | json =>
    cases v with
    | vBytes bs => exact h.elim
    | vNumDec neg ip suffix => exact Bool.noConfusion h
    | vStr s =>
      show decodePayload (utf8Encode (jsonStringify (.vStr s))) .json = .vStr s
      rw [decodePayload_utf8]
      simp only []
      rw [jsonParse_stringify (.vStr s) rfl]
    | vNull =>
      show decodePayload (utf8Encode (jsonStringify .vNull)) .json = .vNull
      rw [decodePayload_utf8]
      simp only []
      rw [jsonParse_stringify .vNull rfl]
    | vBool b =>
      show decodePayload (utf8Encode (jsonStringify (.vBool b))) .json = .vBool b
      rw [decodePayload_utf8]
      simp only []
      rw [jsonParse_stringify (.vBool b) rfl]
    | vNum n =>
      show decodePayload (utf8Encode (jsonStringify (.vNum n))) .json = .vNum n
      rw [decodePayload_utf8]
      simp only []
      rw [jsonParse_stringify (.vNum n) rfl]
    | vArr vs =>
      show decodePayload (utf8Encode (jsonStringify (.vArr vs))) .json = .vArr vs
      rw [decodePayload_utf8]
      simp only []
      rw [jsonParse_stringify (.vArr vs) h]
    | vObj fs =>
      show decodePayload (utf8Encode (jsonStringify (.vObj fs))) .json = .vObj fs
      rw [decodePayload_utf8]
      simp only []
      rw [jsonParse_stringify (.vObj fs) h]

theorem codec_roundtrip_witness :
    representable (.vObj [("a", .vNum 1)]) .auto ∧
    decodePayload (wireBytes (normalizePayload (.vObj [("a", .vNum 1)]) .auto)) .auto =
      .vObj [("a", .vNum 1)] :=
  ⟨rfl, (codec_roundtrip (.vObj [("a", .vNum 1)]) .auto rfl).1⟩

/-- C6: decoding is never fatal (the decoder is a total function).  In
`String` mode the decoded UTF-8 text is always returned and no structured
parse is consulted — even when the text would parse; in `Auto` and `Json`
modes, structured parsing is attempted and on failure the raw decoded text
itself is returned instead of an exception propagating. -/
theorem decode_never_fatal (bytes : List Nat) (mode : SerializationMode) :
    decodePayload bytes .string = .vStr (utf8Decode bytes) ∧
    (jsonParse (utf8Decode bytes) = none →
      decodePayload bytes mode = .vStr (utf8Decode bytes)) := by
  constructor
  · rfl
  · intro h
    cases mode <;> simp [decodePayload, h]

theorem decode_never_fatal_witness :
    decodePayload (utf8Encode "hello") .auto =
      .vStr (utf8Decode (utf8Encode "hello")) :=
  (decode_never_fatal (utf8Encode "hello") .auto).2 rfl

/-- C7: from the initial `offline` state, the scripted transport sequence
connect-requested, connected, dropped-with-retry, connected, closed
produces exactly the statuses connecting, online, reconnecting, online,
offline; and a drop-with-retry while `connecting` or `reconnecting` yields
`connecting`, not `reconnecting`. -/
theorem status_scripted_trace :
    statusTrace .offline
      [.connectRequested, .connected, .reconnectPending, .connected, .closed] =
      [.connecting, .online, .reconnecting, .online, .offline] ∧
    statusStep .connecting .reconnectPending = .connecting ∧
    statusStep .reconnecting .reconnectPending = .connecting := by
  decide

/-- C8: invoking the publish callback before a connection exists (the
client handle is null) throws synchronously — the model returns
`Except.error` with the source's message — and has no other effect: no
updated buffer and no outgoing message is produced (the error branch
carries no `PublishOutcome`). -/
theorem publish_without_client_errors (ctxPublisherId : Option String)
    (recent : List RecentPublish) (topic : String) (payload : JSValue)
    (mode : SerializationMode) (now : Nat) :
    publishCallback false ctxPublisherId recent topic payload mode now =
      .error "MQTT client not ready" := rfl

/-- C9: an inbound message reaches the filter/decoder/callback/slot only
when its topic is literally one of the subscription's topic strings; a
message on any other topic — for example one matching a subscribed MQTT
wildcard pattern only — is silently dropped by the `topics.includes`
check. -/
theorem topic_exact_match_required (topics : List String)
    (options : SubscriptionOptions) (ctxPid : String) (recent : List RecentPublish)
    (now : Nat) (msgTopic : String) (payload : List Nat) (pid : Option String)
    (h : msgTopic ∉ topics) :
    handleMessage topics options ctxPid recent now msgTopic payload pid = none := by
  simp [handleMessage, h]

theorem topic_exact_match_required_witness :
    ("a/b" ∉ ["a/+"]) ∧
    handleMessage ["a/+"] ⟨false, none, none⟩ "p" [] 0 "a/b" [104] none = none :=
  ⟨by decide,
   topic_exact_match_required ["a/+"] ⟨false, none, none⟩ "p" [] 0 "a/b" [104] none
     (by decide)⟩

/-- C10: the fingerprint depends only on the first 512 payload bytes —
two payloads agreeing on their first 512 bytes have equal fingerprints —
and consequently, with `excludeSelf`, a tag-less inbound message within
the suppression window whose first 512 bytes equal those of a recent local
binary publish is suppressed even when the payloads differ beyond byte
512. -/
theorem fingerprint_prefix_512 (p1 p2 : List Nat) (topics : List String)
    (options : SubscriptionOptions) (ctxPid topic : String) (t0 now : Nat)
    (hpre : p1.take 512 = p2.take 512)
    (hes : options.excludeSelf = true)
    (hwin : (now : Int) - (t0 : Int) < (options.selfWindowMs.getD 100 : Nat)) :
    fingerprint p1 = fingerprint p2 ∧
    handleMessage topics options ctxPid (recordPublish [] topic (.bytes p1) t0) now
      topic p2 none = none := by
  have hfp : fingerprint p1 = fingerprint p2 := by
    unfold fingerprint
    rw [hpre]
  refine ⟨hfp, ?_⟩
  refine handleMessage_fallback_none _ _ _ _ _ _ _ hes ?_
  have hmem := recordPublish_self_mem [] topic (.bytes p1) t0
  rw [show fingerprint (wireBytes (.bytes p1)) = fingerprint p2 from hfp] at hmem
  exact fallbackHit_of_mem _ _ _ _ _ t0 hmem hwin

theorem fingerprint_prefix_512_witness :
    (List.replicate 513 0).take 512 = ((List.replicate 512 0) ++ [7]).take 512 ∧
    handleMessage ["t"] ⟨true, none, none⟩ "p"
      (recordPublish [] "t" (.bytes (List.replicate 513 0)) 0) 50 "t"
      ((List.replicate 512 0) ++ [7]) none = none := by
  have hpre : (List.replicate 513 0).take 512 =
      ((List.replicate 512 0) ++ [7]).take 512 := by
    have h1 : (512 : Nat) ≤ (List.replicate 512 (0 : Nat)).length := by
      rw [List.length_replicate]
    rw [List.take_append_of_le_length h1, List.take_replicate, List.take_replicate]
    norm_num
  exact ⟨hpre,
    (fingerprint_prefix_512 (List.replicate 513 0) ((List.replicate 512 0) ++ [7])
      ["t"] ⟨true, none, none⟩ "p" "t" 0 50 hpre rfl (by decide)).2⟩
